import Mathlib

/-!
# Verification of the solar battery dispatch simulator

A shallow embedding, over exact rational arithmetic, of the two core
functions of `solarna_app.py`:

* `solar_production` (lines 201-212): converts seconds of sunshine in a
  15-minute interval into produced energy (MWh);
* `simulate_day` (lines 214-370): the per-day dispatch simulation — a
  chronological forward pass that charges the battery from solar and sells
  the rest directly, followed by a price-ranked discharge pass.

The Python code closes over the sidebar globals (`CAPACITY_MWH`, `POWER_MW`,
`ETA_CH`, `ETA_DIS`, `SOLAR_POWER_MW`, `MIN_SELL_HOUR`); here they are
gathered into a `BatteryConfig` argument.  Python floats are modelled as
rationals; list indexing `l[i]` is modelled as `l.getD i 0` (the default is
never reached for in-contract inputs; the `Checked` variants below certify
this, returning `none` exactly where the Python code would raise).
-/

set_option maxRecDepth 1000000

namespace Solarna

/-- The battery/solar parameters from the sidebar (lines 74-136). -/
structure BatteryConfig where
  capacityMWh : ℚ
  powerMW : ℚ
  chargeEfficiency : ℚ
  dischargeEfficiency : ℚ
  installedSolarMW : ℚ
  minSellHour : ℕ
deriving DecidableEq

/-- One entry of the `actions` list built by `simulate_day`.  The Python code
appends dicts with a `tip` field of `'punjenje'` (charge), `'direktna
prodaja'` (direct sale) or `'praznjenje'` (discharge); charge dicts also
record the interval's solar energy. -/
inductive Action where
  | punjenje (interval : ℕ) (energija : ℚ) (solar : ℚ) (cijena : ℚ) (soc : ℚ)
  | direktnaProdaja (interval : ℕ) (energija : ℚ) (cijena : ℚ) (soc : ℚ)
  | praznjenje (interval : ℕ) (energija : ℚ) (cijena : ℚ) (soc : ℚ)
deriving DecidableEq

namespace Action

/-- The `'interval'` field of an action dict. -/
def interval : Action → ℕ
  | punjenje i _ _ _ _ => i
  | direktnaProdaja i _ _ _ => i
  | praznjenje i _ _ _ => i

/-- The `'energija'` field of an action dict. -/
def energija : Action → ℚ
  | punjenje _ e _ _ _ => e
  | direktnaProdaja _ e _ _ => e
  | praznjenje _ e _ _ => e

/-- The `'cijena'` field of an action dict. -/
def cijena : Action → ℚ
  | punjenje _ _ _ c _ => c
  | direktnaProdaja _ _ c _ => c
  | praznjenje _ _ c _ => c

/-- The `'soc'` field of an action dict. -/
def socAfter : Action → ℚ
  | punjenje _ _ _ _ s => s
  | direktnaProdaja _ _ _ s => s
  | praznjenje _ _ _ s => s

/-- Is this a `'punjenje'` (charge) action? -/
def isPunjenje : Action → Bool
  | punjenje _ _ _ _ _ => true
  | _ => false

/-- Is this a `'direktna prodaja'` (direct sale) action? -/
def isDirektna : Action → Bool
  | direktnaProdaja _ _ _ _ => true
  | _ => false

/-- Is this a `'praznjenje'` (discharge) action? -/
def isPraznjenje : Action → Bool
  | praznjenje _ _ _ _ => true
  | _ => false

@[simp] theorem interval_punjenje (i : ℕ) (e s c so : ℚ) :
    (punjenje i e s c so).interval = i := rfl
@[simp] theorem interval_direktna (i : ℕ) (e c so : ℚ) :
    (direktnaProdaja i e c so).interval = i := rfl
@[simp] theorem interval_praznjenje (i : ℕ) (e c so : ℚ) :
    (praznjenje i e c so).interval = i := rfl
@[simp] theorem energija_punjenje (i : ℕ) (e s c so : ℚ) :
    (punjenje i e s c so).energija = e := rfl
@[simp] theorem energija_direktna (i : ℕ) (e c so : ℚ) :
    (direktnaProdaja i e c so).energija = e := rfl
@[simp] theorem energija_praznjenje (i : ℕ) (e c so : ℚ) :
    (praznjenje i e c so).energija = e := rfl
@[simp] theorem cijena_punjenje (i : ℕ) (e s c so : ℚ) :
    (punjenje i e s c so).cijena = c := rfl
@[simp] theorem cijena_direktna (i : ℕ) (e c so : ℚ) :
    (direktnaProdaja i e c so).cijena = c := rfl
@[simp] theorem cijena_praznjenje (i : ℕ) (e c so : ℚ) :
    (praznjenje i e c so).cijena = c := rfl
@[simp] theorem socAfter_punjenje (i : ℕ) (e s c so : ℚ) :
    (punjenje i e s c so).socAfter = so := rfl
@[simp] theorem socAfter_direktna (i : ℕ) (e c so : ℚ) :
    (direktnaProdaja i e c so).socAfter = so := rfl
@[simp] theorem socAfter_praznjenje (i : ℕ) (e c so : ℚ) :
    (praznjenje i e c so).socAfter = so := rfl
@[simp] theorem isPunjenje_punjenje (i : ℕ) (e s c so : ℚ) :
    (punjenje i e s c so).isPunjenje = true := rfl
@[simp] theorem isPunjenje_direktna (i : ℕ) (e c so : ℚ) :
    (direktnaProdaja i e c so).isPunjenje = false := rfl
@[simp] theorem isPunjenje_praznjenje (i : ℕ) (e c so : ℚ) :
    (praznjenje i e c so).isPunjenje = false := rfl
@[simp] theorem isDirektna_punjenje (i : ℕ) (e s c so : ℚ) :
    (punjenje i e s c so).isDirektna = false := rfl
@[simp] theorem isDirektna_direktna (i : ℕ) (e c so : ℚ) :
    (direktnaProdaja i e c so).isDirektna = true := rfl
@[simp] theorem isDirektna_praznjenje (i : ℕ) (e c so : ℚ) :
    (praznjenje i e c so).isDirektna = false := rfl
@[simp] theorem isPraznjenje_punjenje (i : ℕ) (e s c so : ℚ) :
    (punjenje i e s c so).isPraznjenje = false := rfl
@[simp] theorem isPraznjenje_direktna (i : ℕ) (e c so : ℚ) :
    (direktnaProdaja i e c so).isPraznjenje = false := rfl
@[simp] theorem isPraznjenje_praznjenje (i : ℕ) (e c so : ℚ) :
    (praznjenje i e c so).isPraznjenje = true := rfl

end Action

/-- `solar_production` (lines 201-212): energy produced in one 15-minute
interval given the seconds of sunshine fed to it. -/
def solar_production (cfg : BatteryConfig) (sunshine_sec : ℚ) : ℚ :=
  if sunshine_sec ≤ 0 then 0
  else cfg.installedSolarMW * (sunshine_sec / 3600) * 0.25

/-- Lines 217-228: each hourly sunshine value is replicated over its four
quarter-hour intervals, the first 96 are kept, and `solar_production` is
applied to each. -/
def solarEnergySeries (cfg : BatteryConfig) (sunshine : List ℚ) : List ℚ :=
  ((sunshine.map (fun s => [s, s, s, s])).flatten.take 96).map (solar_production cfg)

/-- `max_charge_per_interval` / `max_discharge_per_interval` (lines 233-234). -/
def powerLimitPerInterval (cfg : BatteryConfig) : ℚ := cfg.powerMW * 0.25

/-- Mutable state of the forward charging pass (lines 236-303). -/
structure ChargeState where
  soc : ℚ
  socHistory : List ℚ
  actions : List Action
  totalCharged : ℚ
  chargeIntervals : List ℕ
  directSaleRevenue : ℚ
  directSaleEnergy : ℚ
deriving DecidableEq

/-- Initial forward-pass state: `soc = 0`, `soc_history = [0.0]`, all
accumulators zero (lines 236-244). -/
def chargeInit : ChargeState :=
  { soc := 0, socHistory := [0], actions := [], totalCharged := 0,
    chargeIntervals := [], directSaleRevenue := 0, directSaleEnergy := 0 }

/-- One iteration of the forward loop (lines 247-303) at interval `i`. -/
def chargeStep (cfg : BatteryConfig) (prices solarE : List ℚ)
    (st : ChargeState) (i : ℕ) : ChargeState :=
  let solar := solarE.getD i 0
  let price := prices.getD i 0
  let st' :=
    if 0 < solar ∧ st.soc < cfg.capacityMWh then
      let space := cfg.capacityMWh - st.soc
      let charge := min (solar * cfg.chargeEfficiency) (min (powerLimitPerInterval cfg) space)
      if 0 < charge then
        let soc' := st.soc + charge
        let stc : ChargeState :=
          { st with
            soc := soc'
            totalCharged := st.totalCharged + charge
            chargeIntervals := st.chargeIntervals ++ [i]
            actions := st.actions ++ [.punjenje i charge solar price soc'] }
        let remainingSolar := solar - charge / cfg.chargeEfficiency
        if 0 < remainingSolar then
          { stc with
            directSaleRevenue := stc.directSaleRevenue + remainingSolar * price
            directSaleEnergy := stc.directSaleEnergy + remainingSolar
            actions := stc.actions ++ [.direktnaProdaja i remainingSolar price soc'] }
        else stc
      else
        { st with
          directSaleRevenue := st.directSaleRevenue + solar * price
          directSaleEnergy := st.directSaleEnergy + solar
          actions := st.actions ++ [.direktnaProdaja i solar price st.soc] }
    else if 0 < solar then
      { st with
        directSaleRevenue := st.directSaleRevenue + solar * price
        directSaleEnergy := st.directSaleEnergy + solar
        actions := st.actions ++ [.direktnaProdaja i solar price st.soc] }
    else st
  { st' with socHistory := st'.socHistory ++ [st'.soc] }

/-- The full forward pass: `for i in range(96)` (line 247). -/
def runCharge (cfg : BatteryConfig) (prices solarE : List ℚ) : ChargeState :=
  (List.range 96).foldl (chargeStep cfg prices solarE) chargeInit

/-- The discharge candidates (lines 315-318): intervals strictly after the
last charge, at or past `MIN_SELL_HOUR`, with a strictly positive price,
paired with their price. -/
def sellCandidates (cfg : BatteryConfig) (prices : List ℚ) (lastCharge : ℕ) :
    List (ℕ × ℚ) :=
  (List.range 96).filterMap fun i =>
    if lastCharge + 1 ≤ i ∧ cfg.minSellHour ≤ i / 4 ∧ 0 < prices.getD i 0 then
      some (i, prices.getD i 0)
    else none

/-- Stable insertion (descending by price): `c` is placed before the first
element whose price is `≤` its own, hence after every element with a strictly
greater price and after no element with an equal price that preceded it. -/
def insertPriceDesc (c : ℕ × ℚ) : List (ℕ × ℚ) → List (ℕ × ℚ)
  | [] => [c]
  | d :: ds => if d.2 ≤ c.2 then c :: d :: ds else d :: insertPriceDesc c ds

/-- Stable sort, descending by price.  Python's
`sell_candidates.sort(key=lambda x: x[1], reverse=True)` (line 320) is a
stable descending sort; a stable sort's output is determined by the key and
the input order, so this insertion sort computes the same list. -/
def sortPriceDesc : List (ℕ × ℚ) → List (ℕ × ℚ)
  | [] => []
  | c :: cs => insertPriceDesc c (sortPriceDesc cs)

/-- Mutable state of the discharge pass (lines 306-344). -/
structure DischargeState where
  remaining : ℚ
  batterySaleProfit : ℚ
  batterySaleEnergy : ℚ
  batterySaleIntervals : List ℕ
  actions : List Action
  socHistory : List ℚ
deriving DecidableEq

/-- Lines 342-344: every `soc_history` position from `start` on is overwritten
with `v`.  (The Python loop runs `j` from `interval+1` to `96` guarded by
`j < len(soc_history)`; since the history always has 97 entries the two
bounds coincide and every position `≥ start` is overwritten.) -/
def overwriteFrom (hist : List ℚ) (start : ℕ) (v : ℚ) : List ℚ :=
  match hist, start with
  | [], _ => []
  | _ :: xs, 0 => v :: overwriteFrom xs 0 v
  | x :: xs, s + 1 => x :: overwriteFrom xs s v

/-- One iteration of the discharge loop (lines 322-344) on candidate `c`.
The Python `break` on `remaining <= 0` is modelled as a skip: once
`remaining ≤ 0` every later iteration leaves the state unchanged, which is
the same final state the `break` produces. -/
def dischargeStep (maxDischarge etaDis : ℚ) (st : DischargeState) (c : ℕ × ℚ) :
    DischargeState :=
  if st.remaining ≤ 0 then st
  else
    let sellAmount := min st.remaining maxDischarge
    if 0 < sellAmount then
      let sellEnergy := sellAmount * etaDis
      let remaining' := st.remaining - sellAmount
      { remaining := remaining'
        batterySaleProfit := st.batterySaleProfit + sellEnergy * c.2
        batterySaleEnergy := st.batterySaleEnergy + sellEnergy
        batterySaleIntervals := st.batterySaleIntervals ++ [c.1]
        actions := st.actions ++ [.praznjenje c.1 sellAmount c.2 remaining']
        socHistory := overwriteFrom st.socHistory (c.1 + 1) remaining' }
    else st

/-- Discharge-pass state as initialised on lines 306-310: the forward pass's
action list and history are carried over and `remaining = soc`. -/
def dischargeInit (fwd : ChargeState) : DischargeState :=
  { remaining := fwd.soc, batterySaleProfit := 0, batterySaleEnergy := 0,
    batterySaleIntervals := [], actions := fwd.actions, socHistory := fwd.socHistory }

/-- The sorted candidate list over which the discharge loop runs.  It is
empty exactly when the guard `if charge_intervals and soc > 0:` (line 312)
fails, in which case the whole discharge block is a no-op. -/
def sortedSellCandidates (cfg : BatteryConfig) (prices : List ℚ)
    (fwd : ChargeState) : List (ℕ × ℚ) :=
  match fwd.chargeIntervals.getLast? with
  | some lastCharge =>
      if 0 < fwd.soc then sortPriceDesc (sellCandidates cfg prices lastCharge) else []
  | none => []

/-- The full discharge pass (lines 306-344). -/
def runDischarge (cfg : BatteryConfig) (prices : List ℚ) (fwd : ChargeState) :
    DischargeState :=
  (sortedSellCandidates cfg prices fwd).foldl
    (dischargeStep (powerLimitPerInterval cfg) cfg.dischargeEfficiency)
    (dischargeInit fwd)

/-- `np.mean` of a list of rationals. -/
def npMean (l : List ℚ) : ℚ := l.sum / (l.length : ℚ)

/-- Lines 346-347: average settlement price over the candidates actually used
for discharge; `0` if no discharge happened. -/
def batterySalePriceOf (cands : List (ℕ × ℚ)) (dis : DischargeState) : ℚ :=
  if dis.batterySaleIntervals.isEmpty then 0
  else npMean ((cands.filter fun c => dis.batterySaleIntervals.contains c.1).map Prod.snd)

/-- The dict returned by `simulate_day` (lines 353-370). -/
structure DayResult where
  total_produced : ℚ
  total_delivered : ℚ
  direct_sale_energy : ℚ
  direct_sale_revenue : ℚ
  battery_charged : ℚ
  battery_sold : ℚ
  battery_profit : ℚ
  total_revenue : ℚ
  battery_sale_price : ℚ
  battery_sale_intervals : List ℕ
  charge_intervals : List ℕ
  actions : List Action
  soc_history : List ℚ
  solar_power : List ℚ
  prices : List ℚ
  final_soc : ℚ
deriving DecidableEq

/-- `simulate_day(prices, sunshine)` (lines 214-370). -/
def simulate_day (cfg : BatteryConfig) (prices sunshine : List ℚ) : DayResult :=
  let solarEnergy := solarEnergySeries cfg sunshine
  let fwd := runCharge cfg prices solarEnergy
  let cands := sortedSellCandidates cfg prices fwd
  let dis := runDischarge cfg prices fwd
  { total_produced := solarEnergy.sum
    total_delivered := fwd.directSaleEnergy + dis.batterySaleEnergy
    direct_sale_energy := fwd.directSaleEnergy
    direct_sale_revenue := fwd.directSaleRevenue
    battery_charged := fwd.totalCharged
    battery_sold := dis.batterySaleEnergy
    battery_profit := dis.batterySaleProfit
    total_revenue := fwd.directSaleRevenue + dis.batterySaleProfit
    battery_sale_price := batterySalePriceOf cands dis
    battery_sale_intervals := dis.batterySaleIntervals
    charge_intervals := fwd.chargeIntervals
    actions := dis.actions
    soc_history := dis.socHistory
    solar_power := solarEnergy.map (fun e => if 0 < e then e / 0.25 else 0)
    prices := prices
    final_soc := dis.remaining }

/-- Well-formedness of a configuration, as stated by the data-model contract:
positive capacity, power and installed solar, efficiencies in `(0, 1]`. -/
def WellFormed (cfg : BatteryConfig) : Prop :=
  0 < cfg.capacityMWh ∧ 0 < cfg.powerMW ∧
  0 < cfg.chargeEfficiency ∧ cfg.chargeEfficiency ≤ 1 ∧
  0 < cfg.dischargeEfficiency ∧ cfg.dischargeEfficiency ≤ 1 ∧
  0 < cfg.installedSolarMW

instance (cfg : BatteryConfig) : Decidable (WellFormed cfg) := by
  unfold WellFormed; infer_instance

/-! ## Observation helpers (used to state the claims) -/

/-- Total energy of the `Charge` actions recorded at interval `i`. -/
def chargeEnergyAt (acts : List Action) (i : ℕ) : ℚ :=
  ((acts.filter fun a => a.isPunjenje && a.interval == i).map Action.energija).sum

/-- Total energy of the `DirectSale` actions recorded at interval `i`. -/
def directSaleEnergyAt (acts : List Action) (i : ℕ) : ℚ :=
  ((acts.filter fun a => a.isDirektna && a.interval == i).map Action.energija).sum

/-- Sum of the energies of all `Charge` actions with interval `≤ i`. -/
def chargeSumUpTo (acts : List Action) (i : ℕ) : ℚ :=
  ((acts.filter fun a => a.isPunjenje && a.interval ≤ i).map Action.energija).sum

/-- The chronological state of charge after interval `i` as described by the
claim on the SoC trace: all `Charge` energies at intervals `≤ i` minus all
`Discharge` energies at intervals `≤ i`.  (Modelled from the claim's words,
for comparison with what the code actually stores.) -/
def specChronoSoC (acts : List Action) (i : ℕ) : ℚ :=
  chargeSumUpTo acts i -
    ((acts.filter fun a => a.isPraznjenje && a.interval ≤ i).map Action.energija).sum

/-- Last-write-wins reading of the final SoC trace at position `j`: the `soc`
recorded by the most recently *processed* discharge action whose interval is
`< j`, or `fwdVal` (the forward-pass value) when no such discharge exists. -/
def lastWriteSoC (dischargeActs : List Action) (fwdVal : ℚ) (j : ℕ) : ℚ :=
  match (dischargeActs.filter fun a => a.interval + 1 ≤ j).getLast? with
  | some a => a.socAfter
  | none => fwdVal

/-! ## Helper lemmas on the observation functions -/

@[simp] theorem chargeEnergyAt_nil (i : ℕ) : chargeEnergyAt [] i = 0 := rfl

@[simp] theorem directSaleEnergyAt_nil (i : ℕ) : directSaleEnergyAt [] i = 0 := rfl

theorem chargeEnergyAt_append (A B : List Action) (i : ℕ) :
    chargeEnergyAt (A ++ B) i = chargeEnergyAt A i + chargeEnergyAt B i := by
  simp [chargeEnergyAt, List.filter_append]

theorem directSaleEnergyAt_append (A B : List Action) (i : ℕ) :
    directSaleEnergyAt (A ++ B) i = directSaleEnergyAt A i + directSaleEnergyAt B i := by
  simp [directSaleEnergyAt, List.filter_append]

theorem chargeEnergyAt_eq_zero (d : List Action) (i : ℕ)
    (h : ∀ a ∈ d, a.isPunjenje = false ∨ a.interval ≠ i) :
    chargeEnergyAt d i = 0 := by
  unfold chargeEnergyAt
  have : d.filter (fun a => a.isPunjenje && a.interval == i) = [] := by
    refine List.filter_eq_nil_iff.2 fun a ha => ?_
    rcases h a ha with h' | h' <;> simp [h']
  simp [this]

theorem directSaleEnergyAt_eq_zero (d : List Action) (i : ℕ)
    (h : ∀ a ∈ d, a.isDirektna = false ∨ a.interval ≠ i) :
    directSaleEnergyAt d i = 0 := by
  unfold directSaleEnergyAt
  have : d.filter (fun a => a.isDirektna && a.interval == i) = [] := by
    refine List.filter_eq_nil_iff.2 fun a ha => ?_
    rcases h a ha with h' | h' <;> simp [h']
  simp [this]

/-! ## Action structure of the two passes -/

@[simp] theorem chargeEnergyAt_single_pun (i : ℕ) (e s c so : ℚ) :
    chargeEnergyAt [Action.punjenje i e s c so] i = e := by
  simp [chargeEnergyAt]

@[simp] theorem chargeEnergyAt_single_dir (i : ℕ) (e c so : ℚ) :
    chargeEnergyAt [Action.direktnaProdaja i e c so] i = 0 := by
  simp [chargeEnergyAt]

@[simp] theorem directSaleEnergyAt_single_pun (i : ℕ) (e s c so : ℚ) :
    directSaleEnergyAt [Action.punjenje i e s c so] i = 0 := by
  simp [directSaleEnergyAt]

@[simp] theorem directSaleEnergyAt_single_dir (i : ℕ) (e c so : ℚ) :
    directSaleEnergyAt [Action.direktnaProdaja i e c so] i = e := by
  simp [directSaleEnergyAt]

/-- A forward-pass step only appends actions, all at its own interval and
never of discharge type. -/
theorem chargeStep_actions_decomp (cfg : BatteryConfig) (prices solarE : List ℚ)
    (st : ChargeState) (i : ℕ) :
    ∃ d : List Action, (chargeStep cfg prices solarE st i).actions = st.actions ++ d ∧
      ∀ a ∈ d, a.interval = i ∧ a.isPraznjenje = false := by
  simp only [chargeStep]
  split_ifs
  · refine ⟨_, by rw [List.append_assoc], ?_⟩
    intro a ha
    rcases List.mem_append.1 ha with h | h <;>
      rcases List.mem_singleton.1 h with rfl <;> simp
  · refine ⟨_, rfl, ?_⟩
    intro a ha
    rcases List.mem_singleton.1 ha with rfl
    simp
  · refine ⟨_, rfl, ?_⟩
    intro a ha
    rcases List.mem_singleton.1 ha with rfl
    simp
  · refine ⟨_, rfl, ?_⟩
    intro a ha
    rcases List.mem_singleton.1 ha with rfl
    simp
  · exact ⟨[], by simp, by simp⟩

/-- A discharge step only appends actions, all of discharge type at the
candidate's interval. -/
theorem dischargeStep_actions_decomp (maxd etaDis : ℚ) (st : DischargeState)
    (c : ℕ × ℚ) :
    ∃ d : List Action, (dischargeStep maxd etaDis st c).actions = st.actions ++ d ∧
      ∀ a ∈ d, a.isPraznjenje = true ∧ a.interval = c.1 := by
  simp only [dischargeStep]
  split_ifs
  · exact ⟨[], by simp, by simp⟩
  · refine ⟨_, rfl, ?_⟩
    intro a ha
    rcases List.mem_singleton.1 ha with rfl
    simp
  · exact ⟨[], by simp, by simp⟩

/-- The discharge fold only appends discharge-type actions. -/
theorem dischargeFold_actions_decomp (maxd etaDis : ℚ) (cs : List (ℕ × ℚ))
    (st : DischargeState) :
    ∃ d : List Action,
      (cs.foldl (dischargeStep maxd etaDis) st).actions = st.actions ++ d ∧
      ∀ a ∈ d, a.isPraznjenje = true := by
  induction cs generalizing st with
  | nil => exact ⟨[], by simp, by simp⟩
  | cons c cs ih =>
    obtain ⟨d1, hd1, h1⟩ := dischargeStep_actions_decomp maxd etaDis st c
    obtain ⟨d2, hd2, h2⟩ := ih (dischargeStep maxd etaDis st c)
    refine ⟨d1 ++ d2, ?_, ?_⟩
    · simp [List.foldl_cons, hd2, hd1]
    · intro a ha
      rcases List.mem_append.1 ha with h | h
      · exact (h1 a h).1
      · exact h2 a h

/-- Charge and direct-sale energies per interval are untouched by the
discharge pass. -/
theorem chargeEnergyAt_dischargeFold (maxd etaDis : ℚ) (cs : List (ℕ × ℚ))
    (st : DischargeState) (i : ℕ) :
    chargeEnergyAt (cs.foldl (dischargeStep maxd etaDis) st).actions i
      = chargeEnergyAt st.actions i := by
  obtain ⟨d, hd, h⟩ := dischargeFold_actions_decomp maxd etaDis cs st
  rw [hd, chargeEnergyAt_append, chargeEnergyAt_eq_zero d i, add_zero]
  intro a ha
  left
  have hpz := h a ha
  cases a with
  | punjenje i e s c so => simp at hpz
  | direktnaProdaja i e c so => simp at hpz
  | praznjenje i e c so => rfl

theorem directSaleEnergyAt_dischargeFold (maxd etaDis : ℚ) (cs : List (ℕ × ℚ))
    (st : DischargeState) (i : ℕ) :
    directSaleEnergyAt (cs.foldl (dischargeStep maxd etaDis) st).actions i
      = directSaleEnergyAt st.actions i := by
  obtain ⟨d, hd, h⟩ := dischargeFold_actions_decomp maxd etaDis cs st
  rw [hd, directSaleEnergyAt_append, directSaleEnergyAt_eq_zero d i, add_zero]
  intro a ha
  left
  have hpz := h a ha
  cases a with
  | punjenje i e s c so => simp at hpz
  | direktnaProdaja i e c so => simp at hpz
  | praznjenje i e c so => rfl

/-! ## Claim C1: per-interval energy conservation in the forward pass -/

/-- A forward step at interval `i` adds exactly `solarEnergy[i]` to
`chargeEnergyAt ⬝ i / chargeEfficiency + directSaleEnergyAt ⬝ i`, provided
that interval has positive solar energy. -/
theorem chargeStep_conservation (cfg : BatteryConfig) (prices solarE : List ℚ)
    (st : ChargeState) (i : ℕ) (heta : 0 < cfg.chargeEfficiency)
    (hsolar : 0 < solarE.getD i 0) :
    chargeEnergyAt (chargeStep cfg prices solarE st i).actions i / cfg.chargeEfficiency
      + directSaleEnergyAt (chargeStep cfg prices solarE st i).actions i
    = chargeEnergyAt st.actions i / cfg.chargeEfficiency
      + directSaleEnergyAt st.actions i + solarE.getD i 0 := by
  simp only [chargeStep]
  split_ifs with h1 h2 h3
  · -- charge recorded, remainder sold directly
    rw [chargeEnergyAt_append, chargeEnergyAt_append, chargeEnergyAt_single_pun,
      chargeEnergyAt_single_dir, directSaleEnergyAt_append, directSaleEnergyAt_append,
      directSaleEnergyAt_single_pun, directSaleEnergyAt_single_dir]
    field_simp
    ring
  · -- charge recorded, no remainder: charge / eta equals the whole solar energy
    rw [chargeEnergyAt_append, chargeEnergyAt_single_pun,
      directSaleEnergyAt_append, directSaleEnergyAt_single_pun]
    simp only [not_lt] at h3
    have hle : min (solarE.getD i 0 * cfg.chargeEfficiency)
        (min (powerLimitPerInterval cfg) (cfg.capacityMWh - st.soc))
        ≤ solarE.getD i 0 * cfg.chargeEfficiency := min_le_left _ _
    have hdiv : min (solarE.getD i 0 * cfg.chargeEfficiency)
        (min (powerLimitPerInterval cfg) (cfg.capacityMWh - st.soc)) / cfg.chargeEfficiency
        = solarE.getD i 0 := by
      have hub : min (solarE.getD i 0 * cfg.chargeEfficiency)
          (min (powerLimitPerInterval cfg) (cfg.capacityMWh - st.soc)) / cfg.chargeEfficiency
          ≤ solarE.getD i 0 := by
        rw [div_le_iff₀ heta]
        exact hle
      linarith
    rw [add_div, hdiv]
    ring
  · -- charge computed as non-positive: everything sold directly
    rw [chargeEnergyAt_append, chargeEnergyAt_single_dir,
      directSaleEnergyAt_append, directSaleEnergyAt_single_dir]
    ring
  · -- battery full: everything sold directly (the inner else is pruned by
    -- `split_ifs` since `0 < solar` holds by hypothesis)
    rw [chargeEnergyAt_append, chargeEnergyAt_single_dir,
      directSaleEnergyAt_append, directSaleEnergyAt_single_dir]
    ring

/-- A forward step at interval `i` does not change the per-interval energies
of any other interval. -/
theorem chargeStep_frame (cfg : BatteryConfig) (prices solarE : List ℚ)
    (st : ChargeState) (i j : ℕ) (hne : j ≠ i) :
    chargeEnergyAt (chargeStep cfg prices solarE st i).actions j
        = chargeEnergyAt st.actions j ∧
    directSaleEnergyAt (chargeStep cfg prices solarE st i).actions j
        = directSaleEnergyAt st.actions j := by
  obtain ⟨d, hd, h⟩ := chargeStep_actions_decomp cfg prices solarE st i
  constructor
  · rw [hd, chargeEnergyAt_append, chargeEnergyAt_eq_zero d j, add_zero]
    intro a ha
    right
    rw [(h a ha).1]
    exact fun hh => hne hh.symm
  · rw [hd, directSaleEnergyAt_append, directSaleEnergyAt_eq_zero d j, add_zero]
    intro a ha
    right
    rw [(h a ha).1]
    exact fun hh => hne hh.symm

/-- Frame over a whole fold: indices not in the processed list leave the
per-interval energies unchanged. -/
theorem chargeFold_frame (cfg : BatteryConfig) (prices solarE : List ℚ)
    (l : List ℕ) (st : ChargeState) (j : ℕ) (hj : j ∉ l) :
    chargeEnergyAt (l.foldl (chargeStep cfg prices solarE) st).actions j
        = chargeEnergyAt st.actions j ∧
    directSaleEnergyAt (l.foldl (chargeStep cfg prices solarE) st).actions j
        = directSaleEnergyAt st.actions j := by
  induction l generalizing st with
  | nil => exact ⟨rfl, rfl⟩
  | cons i l ih =>
    have hji : j ≠ i := fun h => hj (h ▸ List.mem_cons_self i l)
    have hjl : j ∉ l := fun h => hj (List.mem_cons_of_mem i h)
    obtain ⟨e1, e2⟩ := ih (chargeStep cfg prices solarE st i) hjl
    obtain ⟨f1, f2⟩ := chargeStep_frame cfg prices solarE st i j hji
    exact ⟨by rw [List.foldl_cons, e1, f1], by rw [List.foldl_cons, e2, f2]⟩

/-- Conservation over a fold of distinct indices containing `i`. -/
theorem chargeFold_conservation (cfg : BatteryConfig) (prices solarE : List ℚ)
    (l : List ℕ) (st : ChargeState) (i : ℕ)
    (heta : 0 < cfg.chargeEfficiency) (hnd : l.Nodup) (hil : i ∈ l)
    (hsolar : 0 < solarE.getD i 0) :
    chargeEnergyAt (l.foldl (chargeStep cfg prices solarE) st).actions i
        / cfg.chargeEfficiency
      + directSaleEnergyAt (l.foldl (chargeStep cfg prices solarE) st).actions i
    = chargeEnergyAt st.actions i / cfg.chargeEfficiency
      + directSaleEnergyAt st.actions i + solarE.getD i 0 := by
  induction l generalizing st with
  | nil => cases hil
  | cons j l ih =>
    rcases List.mem_cons.1 hil with rfl | hmem
    · have hnotin : i ∉ l := (List.nodup_cons.1 hnd).1
      obtain ⟨e1, e2⟩ := chargeFold_frame cfg prices solarE l
        (chargeStep cfg prices solarE st i) i hnotin
      rw [List.foldl_cons, e1, e2]
      exact chargeStep_conservation cfg prices solarE st i heta hsolar
    · have hne : i ≠ j := by
        rintro rfl
        exact (List.nodup_cons.1 hnd).1 hmem
      obtain ⟨f1, f2⟩ := chargeStep_frame cfg prices solarE st j i hne
      rw [List.foldl_cons, ih (chargeStep cfg prices solarE st j)
        (List.nodup_cons.1 hnd).2 hmem, f1, f2]

/-- Claim C1: for every well-formed input and every interval with positive
solar energy, the recorded charge energy divided by the charge efficiency
plus the recorded direct-sale energy equals the interval's solar energy
exactly — the forward pass neither creates nor destroys solar energy. -/
theorem C1_per_interval_energy_conservation
    (cfg : BatteryConfig) (prices sunshine : List ℚ)
    (hp : prices.length = 96) (hs : sunshine.length = 24) (hcfg : WellFormed cfg)
    (i : ℕ) (hi : i < 96)
    (hsolar : 0 < (solarEnergySeries cfg sunshine).getD i 0) :
    chargeEnergyAt (simulate_day cfg prices sunshine).actions i / cfg.chargeEfficiency
      + directSaleEnergyAt (simulate_day cfg prices sunshine).actions i
    = (solarEnergySeries cfg sunshine).getD i 0 := by
  have heta := hcfg.2.2.1
  have hact : (simulate_day cfg prices sunshine).actions
      = (runDischarge cfg prices (runCharge cfg prices (solarEnergySeries cfg sunshine))).actions := rfl
  rw [hact]
  unfold runDischarge
  rw [chargeEnergyAt_dischargeFold, directSaleEnergyAt_dischargeFold]
  have hinit : (dischargeInit (runCharge cfg prices (solarEnergySeries cfg sunshine))).actions
      = (runCharge cfg prices (solarEnergySeries cfg sunshine)).actions := rfl
  rw [hinit]
  unfold runCharge
  have := chargeFold_conservation cfg prices (solarEnergySeries cfg sunshine)
    (List.range 96) chargeInit i heta (List.nodup_range 96) (List.mem_range.2 hi) hsolar
  rw [this]
  simp [chargeInit]

/-! ## Basic lemmas about `overwriteFrom` -/

@[simp] theorem overwriteFrom_length (hist : List ℚ) (start : ℕ) (v : ℚ) :
    (overwriteFrom hist start v).length = hist.length := by
  induction hist generalizing start with
  | nil => rfl
  | cons x xs ih =>
    cases start with
    | zero => simp [overwriteFrom, ih]
    | succ s => simp [overwriteFrom, ih]

theorem overwriteFrom_mem (hist : List ℚ) (start : ℕ) (v : ℚ) (x : ℚ)
    (hx : x ∈ overwriteFrom hist start v) : x ∈ hist ∨ x = v := by
  induction hist generalizing start with
  | nil => cases hx
  | cons y ys ih =>
    cases start with
    | zero =>
      rcases List.mem_cons.1 hx with rfl | h
      · right; rfl
      · rcases ih 0 h with h' | h'
        · exact Or.inl (List.mem_cons_of_mem _ h')
        · exact Or.inr h'
    | succ s =>
      rcases List.mem_cons.1 hx with rfl | h
      · exact Or.inl (List.mem_cons_self _ _)
      · rcases ih s h with h' | h'
        · exact Or.inl (List.mem_cons_of_mem _ h')
        · exact Or.inr h'

theorem overwriteFrom_getD (hist : List ℚ) (start : ℕ) (v : ℚ) (j : ℕ) :
    (overwriteFrom hist start v).getD j 0
      = if start ≤ j ∧ j < hist.length then v else hist.getD j 0 := by
  induction hist generalizing start j with
  | nil => simp [overwriteFrom]
  | cons y ys ih =>
    cases start with
    | zero =>
      cases j with
      | zero => simp [overwriteFrom]
      | succ j' =>
        simp only [overwriteFrom, List.getD_cons_succ, ih 0 j', List.length_cons]
        by_cases hj : j' < ys.length <;> simp [hj] <;> omega
    | succ s =>
      cases j with
      | zero => simp [overwriteFrom]
      | succ j' =>
        simp only [overwriteFrom, List.getD_cons_succ, ih s j', List.length_cons]
        by_cases h1 : s ≤ j' <;> by_cases h2 : j' < ys.length <;>
          simp [h1, h2] <;> omega

/-! ## Claim C2: the SoC trace stays within `[0, capacity]` -/

/-- A forward step appends the updated `soc` to the history and changes
nothing else about the history. -/
theorem chargeStep_socHistory (cfg : BatteryConfig) (prices solarE : List ℚ)
    (st : ChargeState) (i : ℕ) :
    (chargeStep cfg prices solarE st i).socHistory
      = st.socHistory ++ [(chargeStep cfg prices solarE st i).soc] := by
  simp only [chargeStep]
  split_ifs <;> rfl

/-- The forward step keeps the state of charge within `[0, capacity]`. -/
theorem chargeStep_soc_bounds (cfg : BatteryConfig) (prices solarE : List ℚ)
    (st : ChargeState) (i : ℕ)
    (h0 : 0 ≤ st.soc) (h1 : st.soc ≤ cfg.capacityMWh) :
    0 ≤ (chargeStep cfg prices solarE st i).soc ∧
      (chargeStep cfg prices solarE st i).soc ≤ cfg.capacityMWh := by
  simp only [chargeStep]
  split_ifs with hA hB
  · have hle : min (solarE.getD i 0 * cfg.chargeEfficiency)
        (min (powerLimitPerInterval cfg) (cfg.capacityMWh - st.soc))
        ≤ cfg.capacityMWh - st.soc :=
      le_trans (min_le_right _ _) (min_le_right _ _)
    constructor
    · simp only []
      linarith
    · simp only []
      linarith
  · have hle : min (solarE.getD i 0 * cfg.chargeEfficiency)
        (min (powerLimitPerInterval cfg) (cfg.capacityMWh - st.soc))
        ≤ cfg.capacityMWh - st.soc :=
      le_trans (min_le_right _ _) (min_le_right _ _)
    constructor
    · simp only []
      linarith
    · simp only []
      linarith
  · exact ⟨h0, h1⟩
  · exact ⟨h0, h1⟩
  · exact ⟨h0, h1⟩

/-- The forward fold keeps both the running `soc` and every entry of the
SoC history within `[0, capacity]`. -/
theorem chargeFold_soc_bounds (cfg : BatteryConfig) (prices solarE : List ℚ)
    (l : List ℕ) (st : ChargeState)
    (h0 : 0 ≤ st.soc) (h1 : st.soc ≤ cfg.capacityMWh)
    (hh : ∀ x ∈ st.socHistory, 0 ≤ x ∧ x ≤ cfg.capacityMWh) :
    (0 ≤ (l.foldl (chargeStep cfg prices solarE) st).soc ∧
      (l.foldl (chargeStep cfg prices solarE) st).soc ≤ cfg.capacityMWh) ∧
    ∀ x ∈ (l.foldl (chargeStep cfg prices solarE) st).socHistory,
      0 ≤ x ∧ x ≤ cfg.capacityMWh := by
  induction l generalizing st with
  | nil => exact ⟨⟨h0, h1⟩, hh⟩
  | cons i l ih =>
    obtain ⟨hs0, hs1⟩ := chargeStep_soc_bounds cfg prices solarE st i h0 h1
    refine List.foldl_cons _ _ ▸ ih (chargeStep cfg prices solarE st i) hs0 hs1 ?_
    rw [chargeStep_socHistory]
    intro x hx
    rcases List.mem_append.1 hx with h | h
    · exact hh x h
    · rcases List.mem_singleton.1 h with rfl
      exact ⟨hs0, hs1⟩

/-- A discharge step keeps `remaining` within `[0, capacity]` and writes only
in-range values into the history. -/
theorem dischargeStep_bounds (maxd etaDis cap : ℚ) (st : DischargeState)
    (c : ℕ × ℚ) (h0 : 0 ≤ st.remaining) (h1 : st.remaining ≤ cap)
    (hh : ∀ x ∈ st.socHistory, 0 ≤ x ∧ x ≤ cap) :
    (0 ≤ (dischargeStep maxd etaDis st c).remaining ∧
      (dischargeStep maxd etaDis st c).remaining ≤ cap) ∧
    ∀ x ∈ (dischargeStep maxd etaDis st c).socHistory, 0 ≤ x ∧ x ≤ cap := by
  simp only [dischargeStep]
  split_ifs with hA hB
  · exact ⟨⟨h0, h1⟩, hh⟩
  · have hsell : min st.remaining maxd ≤ st.remaining := min_le_left _ _
    refine ⟨⟨by simp only []; linarith, by simp only []; linarith⟩, ?_⟩
    intro x hx
    simp only [] at hx
    rcases overwriteFrom_mem _ _ _ x hx with h | rfl
    · exact hh x h
    · constructor <;> linarith
  · exact ⟨⟨h0, h1⟩, hh⟩

/-- The discharge fold preserves the same bounds. -/
theorem dischargeFold_bounds (maxd etaDis cap : ℚ) (cs : List (ℕ × ℚ))
    (st : DischargeState) (h0 : 0 ≤ st.remaining) (h1 : st.remaining ≤ cap)
    (hh : ∀ x ∈ st.socHistory, 0 ≤ x ∧ x ≤ cap) :
    (0 ≤ (cs.foldl (dischargeStep maxd etaDis) st).remaining ∧
      (cs.foldl (dischargeStep maxd etaDis) st).remaining ≤ cap) ∧
    ∀ x ∈ (cs.foldl (dischargeStep maxd etaDis) st).socHistory,
      0 ≤ x ∧ x ≤ cap := by
  induction cs generalizing st with
  | nil => exact ⟨⟨h0, h1⟩, hh⟩
  | cons c cs ih =>
    obtain ⟨⟨g0, g1⟩, gh⟩ := dischargeStep_bounds maxd etaDis cap st c h0 h1 hh
    exact List.foldl_cons _ _ ▸ ih (dischargeStep maxd etaDis st c) g0 g1 gh

/-- Claim C2: for every well-formed input, every entry of the returned
`soc_history` lies in the closed interval `[0, capacityMWh]`, through both
the forward charging pass and the discharge-pass overwrites. -/
theorem C2_capacity_invariant (cfg : BatteryConfig) (prices sunshine : List ℚ)
    (hp : prices.length = 96) (hs : sunshine.length = 24) (hcfg : WellFormed cfg)
    (x : ℚ) (hx : x ∈ (simulate_day cfg prices sunshine).soc_history) :
    0 ≤ x ∧ x ≤ cfg.capacityMWh := by
  have hcap : (0:ℚ) ≤ cfg.capacityMWh := le_of_lt hcfg.1
  have hhist : (simulate_day cfg prices sunshine).soc_history
      = (runDischarge cfg prices (runCharge cfg prices (solarEnergySeries cfg sunshine))).socHistory := rfl
  rw [hhist] at hx
  have hfwd := chargeFold_soc_bounds cfg prices (solarEnergySeries cfg sunshine)
    (List.range 96) chargeInit le_rfl hcap
    (by intro y hy; rcases List.mem_singleton.1 hy with rfl; exact ⟨le_rfl, hcap⟩)
  have hdis := dischargeFold_bounds (powerLimitPerInterval cfg) cfg.dischargeEfficiency
    cfg.capacityMWh
    (sortedSellCandidates cfg prices (runCharge cfg prices (solarEnergySeries cfg sunshine)))
    (dischargeInit (runCharge cfg prices (solarEnergySeries cfg sunshine)))
    hfwd.1.1 hfwd.1.2 hfwd.2
  exact hdis.2 x hx

/-! ## Claim C4: no action exceeds the per-interval power limit -/

/-- The energy of every `Charge`/`Discharge` action appended by a forward
step is bounded by `powerMW * 0.25` (the recorded charge is a `min` with the
power limit). -/
theorem chargeStep_energy_bound (cfg : BatteryConfig) (prices solarE : List ℚ)
    (st : ChargeState) (i : ℕ)
    (hinv : ∀ a ∈ st.actions, a.isPunjenje = true ∨ a.isPraznjenje = true →
      a.energija ≤ powerLimitPerInterval cfg) :
    ∀ a ∈ (chargeStep cfg prices solarE st i).actions,
      a.isPunjenje = true ∨ a.isPraznjenje = true →
        a.energija ≤ powerLimitPerInterval cfg := by
  have hchg : min (solarE.getD i 0 * cfg.chargeEfficiency)
      (min (powerLimitPerInterval cfg) (cfg.capacityMWh - st.soc))
      ≤ powerLimitPerInterval cfg :=
    le_trans (min_le_right _ _) (min_le_left _ _)
  simp only [chargeStep]
  split_ifs <;> intro a ha hty
  · rcases List.mem_append.1 ha with h | h
    · rcases List.mem_append.1 h with h' | h'
      · exact hinv a h' hty
      · rcases List.mem_singleton.1 h' with rfl
        simpa using hchg
    · rcases List.mem_singleton.1 h with rfl
      simp at hty
  · rcases List.mem_append.1 ha with h | h
    · exact hinv a h hty
    · rcases List.mem_singleton.1 h with rfl
      simpa using hchg
  · rcases List.mem_append.1 ha with h | h
    · exact hinv a h hty
    · rcases List.mem_singleton.1 h with rfl
      simp at hty
  · rcases List.mem_append.1 ha with h | h
    · exact hinv a h hty
    · rcases List.mem_singleton.1 h with rfl
      simp at hty
  · exact hinv a ha hty

/-- Same bound through the whole forward fold. -/
theorem chargeFold_energy_bound (cfg : BatteryConfig) (prices solarE : List ℚ)
    (l : List ℕ) (st : ChargeState)
    (hinv : ∀ a ∈ st.actions, a.isPunjenje = true ∨ a.isPraznjenje = true →
      a.energija ≤ powerLimitPerInterval cfg) :
    ∀ a ∈ (l.foldl (chargeStep cfg prices solarE) st).actions,
      a.isPunjenje = true ∨ a.isPraznjenje = true →
        a.energija ≤ powerLimitPerInterval cfg := by
  induction l generalizing st with
  | nil => exact hinv
  | cons i l ih =>
    exact List.foldl_cons _ _ ▸
      ih (chargeStep cfg prices solarE st i)
        (chargeStep_energy_bound cfg prices solarE st i hinv)

/-- The energy of every discharge action appended by a discharge step is
bounded by the discharge power limit (it is a `min` with it). -/
theorem dischargeStep_energy_bound (maxd etaDis : ℚ) (st : DischargeState)
    (c : ℕ × ℚ)
    (hinv : ∀ a ∈ st.actions, a.isPunjenje = true ∨ a.isPraznjenje = true →
      a.energija ≤ maxd) :
    ∀ a ∈ (dischargeStep maxd etaDis st c).actions,
      a.isPunjenje = true ∨ a.isPraznjenje = true → a.energija ≤ maxd := by
  simp only [dischargeStep]
  split_ifs <;> intro a ha hty
  · exact hinv a ha hty
  · rcases List.mem_append.1 ha with h | h
    · exact hinv a h hty
    · rcases List.mem_singleton.1 h with rfl
      simpa using min_le_right st.remaining maxd
  · exact hinv a ha hty

/-- Same bound through the whole discharge fold. -/
theorem dischargeFold_energy_bound (maxd etaDis : ℚ) (cs : List (ℕ × ℚ))
    (st : DischargeState)
    (hinv : ∀ a ∈ st.actions, a.isPunjenje = true ∨ a.isPraznjenje = true →
      a.energija ≤ maxd) :
    ∀ a ∈ (cs.foldl (dischargeStep maxd etaDis) st).actions,
      a.isPunjenje = true ∨ a.isPraznjenje = true → a.energija ≤ maxd := by
  induction cs generalizing st with
  | nil => exact hinv
  | cons c cs ih =>
    exact List.foldl_cons _ _ ▸
      ih (dischargeStep maxd etaDis st c)
        (dischargeStep_energy_bound maxd etaDis st c hinv)

/-- Claim C4: every `Charge` and every `Discharge` action returned by
`simulate_day` carries an energy amount of at most `powerMW * 0.25` MWh. -/
theorem C4_power_limit (cfg : BatteryConfig) (prices sunshine : List ℚ)
    (hp : prices.length = 96) (hs : sunshine.length = 24) (hcfg : WellFormed cfg)
    (a : Action) (ha : a ∈ (simulate_day cfg prices sunshine).actions)
    (hty : a.isPunjenje = true ∨ a.isPraznjenje = true) :
    a.energija ≤ cfg.powerMW * 0.25 := by
  have hact : (simulate_day cfg prices sunshine).actions
      = (runDischarge cfg prices (runCharge cfg prices (solarEnergySeries cfg sunshine))).actions := rfl
  rw [hact] at ha
  have hfwd := chargeFold_energy_bound cfg prices (solarEnergySeries cfg sunshine)
    (List.range 96) chargeInit (by intro a h; cases h)
  have hdis := dischargeFold_energy_bound (powerLimitPerInterval cfg)
    cfg.dischargeEfficiency
    (sortedSellCandidates cfg prices (runCharge cfg prices (solarEnergySeries cfg sunshine)))
    (dischargeInit (runCharge cfg prices (solarEnergySeries cfg sunshine)))
    hfwd
  exact hdis a ha hty

/-! ## Sorting and candidate-list lemmas -/

theorem insertPriceDesc_perm (c : ℕ × ℚ) (l : List (ℕ × ℚ)) :
    List.Perm (insertPriceDesc c l) (c :: l) := by
  induction l with
  | nil => exact List.Perm.refl _
  | cons d ds ih =>
    simp only [insertPriceDesc]
    split_ifs
    · exact List.Perm.refl _
    · exact (ih.cons d).trans (List.Perm.swap c d ds)

theorem sortPriceDesc_perm (l : List (ℕ × ℚ)) :
    List.Perm (sortPriceDesc l) l := by
  induction l with
  | nil => exact List.Perm.refl _
  | cons c cs ih =>
    exact (insertPriceDesc_perm c (sortPriceDesc cs)).trans (ih.cons c)

theorem mem_sortPriceDesc (l : List (ℕ × ℚ)) (c : ℕ × ℚ) :
    c ∈ sortPriceDesc l ↔ c ∈ l :=
  (sortPriceDesc_perm l).mem_iff

/-- Membership in the candidate list yields all the eligibility conditions. -/
theorem mem_sellCandidates (cfg : BatteryConfig) (prices : List ℚ)
    (lastCharge : ℕ) (c : ℕ × ℚ) (h : c ∈ sellCandidates cfg prices lastCharge) :
    lastCharge < c.1 ∧ cfg.minSellHour ≤ c.1 / 4 ∧ 0 < prices.getD c.1 0 ∧
      c.2 = prices.getD c.1 0 ∧ c.1 < 96 := by
  obtain ⟨i, hi, hf⟩ := List.mem_filterMap.1 h
  by_cases hcond : lastCharge + 1 ≤ i ∧ cfg.minSellHour ≤ i / 4 ∧ 0 < prices.getD i 0
  · rw [if_pos hcond] at hf
    obtain rfl : (i, prices.getD i 0) = c := Option.some.inj hf
    exact ⟨hcond.1, hcond.2.1, hcond.2.2, rfl, List.mem_range.1 hi⟩
  · rw [if_neg hcond] at hf
    cases hf

/-- In a strictly increasing list of naturals the last element is maximal. -/
theorem pairwise_lt_le_getLast (l : List ℕ) (h : l.Pairwise (· < ·)) (m : ℕ)
    (hm : l.getLast? = some m) : ∀ x ∈ l, x ≤ m := by
  induction l with
  | nil => simp
  | cons a t ih =>
    intro x hx
    cases t with
    | nil =>
      simp only [List.getLast?_singleton, Option.some.injEq] at hm
      rcases List.mem_singleton.1 hx with rfl
      omega
    | cons b t' =>
      rw [List.getLast?_cons_cons] at hm
      have hpt : (b :: t').Pairwise (· < ·) := (List.pairwise_cons.1 h).2
      have hall := (List.pairwise_cons.1 h).1
      rcases List.mem_cons.1 hx with rfl | hx'
      · have hb := ih hpt hm b (List.mem_cons_self _ _)
        have hxb := hall b (List.mem_cons_self _ _)
        omega
      · exact ih hpt hm x hx'

/-! ## Claim C5: discharge only after the last charge, past the sell hour -/

/-- Joint forward-pass invariant on the recorded charge intervals: the list
is strictly increasing, bounded by the indices processed so far, charge
actions' intervals all appear in it, and no discharge action exists. -/
theorem chargeFold_intervals_inv (cfg : BatteryConfig) (prices solarE : List ℚ)
    (l : List ℕ) (st : ChargeState)
    (hl : l.Pairwise (· < ·))
    (hlt : ∀ x ∈ st.chargeIntervals, ∀ y ∈ l, x < y)
    (hsorted : st.chargeIntervals.Pairwise (· < ·))
    (hact : ∀ a ∈ st.actions, a.isPunjenje = true → a.interval ∈ st.chargeIntervals) :
    (l.foldl (chargeStep cfg prices solarE) st).chargeIntervals.Pairwise (· < ·) ∧
    ∀ a ∈ (l.foldl (chargeStep cfg prices solarE) st).actions,
      a.isPunjenje = true →
        a.interval ∈ (l.foldl (chargeStep cfg prices solarE) st).chargeIntervals := by
  induction l generalizing st with
  | nil => exact ⟨hsorted, hact⟩
  | cons i l ih =>
    have hstep :
        ((chargeStep cfg prices solarE st i).chargeIntervals.Pairwise (· < ·) ∧
          ∀ x ∈ (chargeStep cfg prices solarE st i).chargeIntervals, ∀ y ∈ l, x < y) ∧
        ∀ a ∈ (chargeStep cfg prices solarE st i).actions,
          a.isPunjenje = true →
            a.interval ∈ (chargeStep cfg prices solarE st i).chargeIntervals := by
      have hil : ∀ y ∈ l, i < y := (List.pairwise_cons.1 hl).1
      have hstl : ∀ x ∈ st.chargeIntervals, ∀ y ∈ l, x < y :=
        fun x hx y hy => hlt x hx y (List.mem_cons_of_mem i hy)
      have hsti : ∀ x ∈ st.chargeIntervals, x < i :=
        fun x hx => hlt x hx i (List.mem_cons_self i l)
      simp only [chargeStep]
      split_ifs <;>
        refine ⟨⟨?_, ?_⟩, ?_⟩
      -- branch 1: charge and direct sale recorded
      · exact List.pairwise_append.2 ⟨hsorted, List.pairwise_singleton _ _,
          fun x hx y hy => (List.mem_singleton.1 hy) ▸ hsti x hx⟩
      · intro x hx y hy
        rcases List.mem_append.1 hx with h | h
        · exact hstl x h y hy
        · rcases List.mem_singleton.1 h with rfl
          exact hil y hy
      · intro a ha hpun
        rcases List.mem_append.1 ha with h | h
        · rcases List.mem_append.1 h with h' | h'
          · exact List.mem_append_left _ (hact a h' hpun)
          · rcases List.mem_singleton.1 h' with rfl
            simp
        · rcases List.mem_singleton.1 h with rfl
          simp at hpun
      -- branch 2: only a charge recorded
      · exact List.pairwise_append.2 ⟨hsorted, List.pairwise_singleton _ _,
          fun x hx y hy => (List.mem_singleton.1 hy) ▸ hsti x hx⟩
      · intro x hx y hy
        rcases List.mem_append.1 hx with h | h
        · exact hstl x h y hy
        · rcases List.mem_singleton.1 h with rfl
          exact hil y hy
      · intro a ha hpun
        rcases List.mem_append.1 ha with h | h
        · exact List.mem_append_left _ (hact a h hpun)
        · rcases List.mem_singleton.1 h with rfl
          simp
      -- branch 3: charge non-positive, direct sale only
      · exact hsorted
      · exact hstl
      · intro a ha hpun
        rcases List.mem_append.1 ha with h | h
        · exact hact a h hpun
        · rcases List.mem_singleton.1 h with rfl
          simp at hpun
      -- branch 4: battery full, direct sale only
      · exact hsorted
      · exact hstl
      · intro a ha hpun
        rcases List.mem_append.1 ha with h | h
        · exact hact a h hpun
        · rcases List.mem_singleton.1 h with rfl
          simp at hpun
      -- branch 5: nothing recorded
      · exact hsorted
      · exact hstl
      · exact hact
    exact List.foldl_cons _ _ ▸
      ih (chargeStep cfg prices solarE st i) (List.pairwise_cons.1 hl).2
        hstep.1.2 hstep.1.1 hstep.2

/-- The forward pass records no discharge action. -/
theorem chargeFold_no_praznjenje (cfg : BatteryConfig) (prices solarE : List ℚ)
    (l : List ℕ) (st : ChargeState)
    (hst : ∀ a ∈ st.actions, a.isPraznjenje = false) :
    ∀ a ∈ (l.foldl (chargeStep cfg prices solarE) st).actions,
      a.isPraznjenje = false := by
  induction l generalizing st with
  | nil => exact hst
  | cons i l ih =>
    refine List.foldl_cons _ _ ▸ ih (chargeStep cfg prices solarE st i) ?_
    obtain ⟨d, hd, hall⟩ := chargeStep_actions_decomp cfg prices solarE st i
    rw [hd]
    intro a ha
    rcases List.mem_append.1 ha with h | h
    · exact hst a h
    · exact (hall a h).2

/-- Every discharge action produced by the discharge fold either predates the
fold or sits at one of the candidate intervals. -/
theorem dischargeFold_praznjenje_intervals (maxd etaDis : ℚ)
    (cs : List (ℕ × ℚ)) (st : DischargeState) :
    ∀ a ∈ (cs.foldl (dischargeStep maxd etaDis) st).actions,
      a.isPraznjenje = true → a ∈ st.actions ∨ a.interval ∈ cs.map Prod.fst := by
  induction cs generalizing st with
  | nil => exact fun a ha _ => Or.inl ha
  | cons c cs ih =>
    intro a ha hpz
    rw [List.foldl_cons] at ha
    rcases ih (dischargeStep maxd etaDis st c) a ha hpz with h | h
    · obtain ⟨d, hd, hall⟩ := dischargeStep_actions_decomp maxd etaDis st c
      rw [hd] at h
      rcases List.mem_append.1 h with h' | h'
      · exact Or.inl h'
      · exact Or.inr (by rw [(hall a h').2]; exact List.mem_cons_self _ _)
    · exact Or.inr (List.mem_cons_of_mem _ h)

/-- Claim C5: every `Discharge` action of `simulate_day` has an interval
strictly greater than every `Charge` action's interval, and its interval `j`
satisfies `j / 4 ≥ minSellHour`. -/
theorem C5_discharge_eligibility (cfg : BatteryConfig) (prices sunshine : List ℚ)
    (hp : prices.length = 96) (hs : sunshine.length = 24) (hcfg : WellFormed cfg)
    (a : Action) (ha : a ∈ (simulate_day cfg prices sunshine).actions)
    (hpz : a.isPraznjenje = true) :
    (∀ b ∈ (simulate_day cfg prices sunshine).actions,
      b.isPunjenje = true → b.interval < a.interval) ∧
    cfg.minSellHour ≤ a.interval / 4 := by
  set fwd := runCharge cfg prices (solarEnergySeries cfg sunshine) with hfwd
  have hact : (simulate_day cfg prices sunshine).actions
      = (runDischarge cfg prices fwd).actions := rfl
  rw [hact] at ha ⊢
  -- the discharge action's interval is one of the candidates
  have hmem := dischargeFold_praznjenje_intervals (powerLimitPerInterval cfg)
    cfg.dischargeEfficiency (sortedSellCandidates cfg prices fwd)
    (dischargeInit fwd) a ha hpz
  have hnopz : ∀ b ∈ (dischargeInit fwd).actions, b.isPraznjenje = false := by
    intro b hb
    exact chargeFold_no_praznjenje cfg prices (solarEnergySeries cfg sunshine)
      (List.range 96) chargeInit (by intro x hx; cases hx) b hb
  rcases hmem with h | h
  · rw [hnopz a h] at hpz
    cases hpz
  -- unfold the candidate construction
  unfold sortedSellCandidates at h
  rcases hlast : fwd.chargeIntervals.getLast? with _ | lc
  · simp only [hlast] at h
    simp at h
  simp only [hlast] at h
  by_cases hsoc : 0 < fwd.soc
  · rw [if_pos hsoc] at h
    obtain ⟨c, hc, hcfst⟩ := List.mem_map.1 h
    have hcand := mem_sellCandidates cfg prices lc c ((mem_sortPriceDesc _ c).1 hc)
    have hinv := chargeFold_intervals_inv cfg prices (solarEnergySeries cfg sunshine)
      (List.range 96) chargeInit (List.pairwise_lt_range 96)
      (by intro x hx; cases hx) List.Pairwise.nil (by intro b hb; cases hb)
    constructor
    · intro b hb hpun
      obtain ⟨d, hd, hall⟩ := dischargeFold_actions_decomp (powerLimitPerInterval cfg)
        cfg.dischargeEfficiency (sortedSellCandidates cfg prices fwd)
        (dischargeInit fwd)
      unfold runDischarge at hb
      rw [hd] at hb
      rcases List.mem_append.1 hb with h' | h'
      · have hbint : b.interval ∈ fwd.chargeIntervals := hinv.2 b h' hpun
        have hble : b.interval ≤ lc :=
          pairwise_lt_le_getLast fwd.chargeIntervals hinv.1 lc hlast b.interval hbint
        have : lc < a.interval := by rw [← hcfst]; exact hcand.1
        omega
      · exfalso
        have hbpz := hall b h'
        cases b <;> simp at hbpz hpun
    · rw [← hcfst]
      exact hcand.2.1
  · rw [if_neg hsoc] at h
    simp at h

/-! ## Claim C3: structure of the SoC trace -/

/-- Total energy of all `Charge` actions in a list. -/
def totalChargeSum (acts : List Action) : ℚ :=
  ((acts.filter fun a => a.isPunjenje).map Action.energija).sum

@[simp] theorem totalChargeSum_nil : totalChargeSum [] = 0 := rfl

theorem totalChargeSum_append (A B : List Action) :
    totalChargeSum (A ++ B) = totalChargeSum A + totalChargeSum B := by
  simp [totalChargeSum, List.filter_append]

@[simp] theorem totalChargeSum_single_pun (i : ℕ) (e s c so : ℚ) :
    totalChargeSum [Action.punjenje i e s c so] = e := by
  simp [totalChargeSum]

@[simp] theorem totalChargeSum_single_dir (i : ℕ) (e c so : ℚ) :
    totalChargeSum [Action.direktnaProdaja i e c so] = 0 := by
  simp [totalChargeSum]

@[simp] theorem totalChargeSum_single_praz (i : ℕ) (e c so : ℚ) :
    totalChargeSum [Action.praznjenje i e c so] = 0 := by
  simp [totalChargeSum]

theorem chargeSumUpTo_append (A B : List Action) (i : ℕ) :
    chargeSumUpTo (A ++ B) i = chargeSumUpTo A i + chargeSumUpTo B i := by
  simp [chargeSumUpTo, List.filter_append]

@[simp] theorem chargeSumUpTo_single_pun (j : ℕ) (e s c so : ℚ) (i : ℕ) :
    chargeSumUpTo [Action.punjenje j e s c so] i = if j ≤ i then e else 0 := by
  by_cases h : j ≤ i <;> simp [chargeSumUpTo, h]

@[simp] theorem chargeSumUpTo_single_dir (j : ℕ) (e c so : ℚ) (i : ℕ) :
    chargeSumUpTo [Action.direktnaProdaja j e c so] i = 0 := by
  simp [chargeSumUpTo]

@[simp] theorem chargeSumUpTo_single_praz (j : ℕ) (e c so : ℚ) (i : ℕ) :
    chargeSumUpTo [Action.praznjenje j e c so] i = 0 := by
  simp [chargeSumUpTo]

/-- When all charge actions sit at intervals `≤ i`, the cut-off sum is the
total sum. -/
theorem chargeSumUpTo_eq_totalChargeSum (acts : List Action) (i : ℕ)
    (h : ∀ a ∈ acts, a.isPunjenje = true → a.interval ≤ i) :
    chargeSumUpTo acts i = totalChargeSum acts := by
  unfold chargeSumUpTo totalChargeSum
  congr 1
  congr 1
  apply List.filter_congr
  intro a ha
  by_cases hb : a.isPunjenje = true
  · simp [hb, h a ha hb]
  · simp at hb
    simp [hb]

/-- Actions strictly after the cut-off do not contribute to the cut-off sum. -/
theorem chargeSumUpTo_eq_zero (d : List Action) (i : ℕ)
    (h : ∀ a ∈ d, a.isPunjenje = false ∨ i < a.interval) :
    chargeSumUpTo d i = 0 := by
  unfold chargeSumUpTo
  have : d.filter (fun a => a.isPunjenje && a.interval ≤ i) = [] := by
    refine List.filter_eq_nil_iff.2 fun a ha => ?_
    rcases h a ha with h' | h'
    · simp [h']
    · simp only [Bool.and_eq_true, decide_eq_true_eq, not_and]
      intro _
      omega
  simp [this]

/-- A forward step preserves "the running `soc` is the total charged
energy recorded so far". -/
theorem chargeStep_soc_totalChargeSum (cfg : BatteryConfig)
    (prices solarE : List ℚ) (st : ChargeState) (i : ℕ)
    (h : st.soc = totalChargeSum st.actions) :
    (chargeStep cfg prices solarE st i).soc
      = totalChargeSum (chargeStep cfg prices solarE st i).actions := by
  simp only [chargeStep]
  split_ifs
  · rw [List.append_assoc, totalChargeSum_append, totalChargeSum_append]
    simp [h]
  · rw [totalChargeSum_append]
    simp [h]
  · rw [totalChargeSum_append]
    simp [h]
  · rw [totalChargeSum_append]
    simp [h]
  · exact h

/-- Chronology of the forward pass: after folding over `range n` the SoC
history has `n + 1` entries, entry `0` is `0`, and entry `j` (for
`1 ≤ j ≤ n`) is exactly the total `Charge` energy recorded at intervals
`≤ j - 1`. -/
theorem chargeFold_chrono (cfg : BatteryConfig) (prices solarE : List ℚ)
    (n : ℕ) :
    ((List.range n).foldl (chargeStep cfg prices solarE) chargeInit).socHistory.length = n + 1 ∧
    (∀ a ∈ ((List.range n).foldl (chargeStep cfg prices solarE) chargeInit).actions,
      a.interval < n) ∧
    ((List.range n).foldl (chargeStep cfg prices solarE) chargeInit).soc
      = totalChargeSum ((List.range n).foldl (chargeStep cfg prices solarE) chargeInit).actions ∧
    ((List.range n).foldl (chargeStep cfg prices solarE) chargeInit).socHistory.getD 0 0 = 0 ∧
    ∀ j, 1 ≤ j → j ≤ n →
      ((List.range n).foldl (chargeStep cfg prices solarE) chargeInit).socHistory.getD j 0
        = chargeSumUpTo
            ((List.range n).foldl (chargeStep cfg prices solarE) chargeInit).actions (j - 1) := by
  induction n with
  | zero =>
    refine ⟨rfl, ?_, rfl, rfl, ?_⟩
    · intro a ha
      cases ha
    · intro j hj1 hj2
      omega
  | succ n ih =>
    obtain ⟨ihlen, ihint, ihsoc, ihzero, ihj⟩ := ih
    rw [List.range_succ, List.foldl_append, List.foldl_cons, List.foldl_nil]
    set S := (List.range n).foldl (chargeStep cfg prices solarE) chargeInit with hS
    obtain ⟨d, hd, hall⟩ := chargeStep_actions_decomp cfg prices solarE S n
    refine ⟨?_, ?_, ?_, ?_, ?_⟩
    · rw [chargeStep_socHistory, List.length_append, ihlen]
      rfl
    · intro a ha
      rw [hd] at ha
      rcases List.mem_append.1 ha with h | h
      · exact Nat.lt_succ_of_lt (ihint a h)
      · rw [(hall a h).1]
        exact Nat.lt_succ_self n
    · exact chargeStep_soc_totalChargeSum cfg prices solarE S n ihsoc
    · rw [chargeStep_socHistory, List.getD_append _ _ _ _ (by omega)]
      exact ihzero
    · intro j hj1 hj2
      rcases Nat.lt_or_ge j (n + 1) with hcase | hcase
      · -- entry below the new one: unchanged, and the new actions are later
        have hjlen : j < S.socHistory.length := by omega
        rw [chargeStep_socHistory, List.getD_append _ _ _ _ hjlen, hd,
          chargeSumUpTo_append, chargeSumUpTo_eq_zero d (j - 1)
            (fun a ha => Or.inr (by rw [(hall a ha).1]; omega)),
          add_zero]
        exact ihj j hj1 (by omega)
      · -- the freshly appended entry
        have hj : j = n + 1 := by omega
        subst hj
        rw [chargeStep_socHistory, List.getD_append_right _ _ _ _ (by omega), ihlen]
        have hlen0 : n + 1 - (n + 1) = 0 := by omega
        rw [hlen0]
        have hsoc' := chargeStep_soc_totalChargeSum cfg prices solarE S n ihsoc
        have hints : ∀ a ∈ (chargeStep cfg prices solarE S n).actions,
            a.isPunjenje = true → a.interval ≤ n + 1 - 1 := by
          intro a ha _
          rw [hd] at ha
          rcases List.mem_append.1 ha with h | h
          · exact Nat.le_of_lt_succ (Nat.lt_succ_of_lt (ihint a h))
          · rw [(hall a h).1]
            omega
        rw [List.getD_cons_zero, hsoc',
          chargeSumUpTo_eq_totalChargeSum _ _ hints]

/-- A discharge step never changes the length of the SoC history. -/
theorem dischargeStep_socHistory_length (maxd etaDis : ℚ) (st : DischargeState)
    (c : ℕ × ℚ) :
    (dischargeStep maxd etaDis st c).socHistory.length = st.socHistory.length := by
  simp only [dischargeStep]
  split_ifs <;> simp

/-- Entry `0` of the SoC history survives the whole discharge fold. -/
theorem dischargeFold_getD0 (maxd etaDis : ℚ) (cs : List (ℕ × ℚ))
    (st : DischargeState) :
    (cs.foldl (dischargeStep maxd etaDis) st).socHistory.getD 0 0
      = st.socHistory.getD 0 0 := by
  induction cs generalizing st with
  | nil => rfl
  | cons c cs ih =>
    rw [List.foldl_cons, ih]
    simp only [dischargeStep]
    split_ifs <;> try rfl
    rw [overwriteFrom_getD]
    simp

/-- Last-write-wins invariant of the discharge fold: entry `j` of the SoC
history equals the `soc` recorded by the most recently processed discharge
action whose interval precedes `j`, the baseline value `v` standing for the
history entry at the start of the fold. -/
theorem dischargeFold_lastWrite (maxd etaDis : ℚ) (cs : List (ℕ × ℚ))
    (st : DischargeState) (v : ℚ) (j : ℕ) (hj1 : 1 ≤ j)
    (hj2 : j < st.socHistory.length)
    (hbase : st.socHistory.getD j 0
      = lastWriteSoC (st.actions.filter fun a => a.isPraznjenje) v j) :
    (cs.foldl (dischargeStep maxd etaDis) st).socHistory.getD j 0
      = lastWriteSoC
          ((cs.foldl (dischargeStep maxd etaDis) st).actions.filter
            fun a => a.isPraznjenje) v j := by
  induction cs generalizing st with
  | nil => exact hbase
  | cons c cs ih =>
    rw [List.foldl_cons]
    refine ih (dischargeStep maxd etaDis st c) ?_ ?_
    · rw [dischargeStep_socHistory_length]
      exact hj2
    · simp only [dischargeStep]
      split_ifs with hA hB
      · exact hbase
      · set rem2 := st.remaining - min st.remaining maxd with hrem2
        set pz := Action.praznjenje c.1 (min st.remaining maxd) c.2 rem2 with hpzdef
        rw [overwriteFrom_getD]
        have hsplit : (st.actions ++ [pz]).filter (fun a => a.isPraznjenje)
            = st.actions.filter (fun a => a.isPraznjenje) ++ [pz] := by
          rw [List.filter_append]
          simp [hpzdef]
        rw [hsplit]
        unfold lastWriteSoC
        rw [List.filter_append]
        by_cases hcj : c.1 + 1 ≤ j
        · rw [if_pos ⟨hcj, hj2⟩]
          have h2 : [pz].filter (fun a => a.interval + 1 ≤ j) = [pz] := by
            simp [hpzdef, hcj]
          rw [h2, List.getLast?_append_of_ne_nil _ (by simp)]
          simp [hpzdef]
        · rw [if_neg (fun hh => hcj hh.1)]
          have h2 : [pz].filter (fun a => a.interval + 1 ≤ j) = [] := by
            simp [hpzdef, hcj]
          rw [h2, List.append_nil]
          unfold lastWriteSoC at hbase
          exact hbase
      · exact hbase

/-- A discharge action is not a charge action. -/
theorem isPraznjenje_not_isPunjenje (a : Action) (h : a.isPraznjenje = true) :
    a.isPunjenje = false := by
  cases a <;> simp_all

/-- A discharge action is not a direct-sale action. -/
theorem isPraznjenje_not_isDirektna (a : Action) (h : a.isPraznjenje = true) :
    a.isDirektna = false := by
  cases a <;> simp_all

/-- The discharge fold never changes the length of the SoC history. -/
theorem dischargeFold_socHistory_length (maxd etaDis : ℚ) (cs : List (ℕ × ℚ))
    (st : DischargeState) :
    (cs.foldl (dischargeStep maxd etaDis) st).socHistory.length
      = st.socHistory.length := by
  induction cs generalizing st with
  | nil => rfl
  | cons c cs ih =>
    rw [List.foldl_cons, ih, dischargeStep_socHistory_length]

@[simp] theorem lastWriteSoC_nil (v : ℚ) (j : ℕ) : lastWriteSoC [] v j = v := rfl

/-- Claim C3 (amended): the returned SoC trace has exactly 97 entries and
entry `0` equals `0`; however entry `j` (`1 ≤ j ≤ 96`) is *not* in general
the chronological SoC after interval `j - 1`.  Instead it is determined
last-write-wins by processing order: it equals the `soc` recorded by the most
recently *processed* `Discharge` action whose interval is `< j`, and only
where no such discharge exists does it equal the chronological forward-pass
SoC (the total `Charge` energy recorded at intervals `≤ j - 1`). -/
theorem C3_soc_trace_last_write_wins (cfg : BatteryConfig)
    (prices sunshine : List ℚ)
    (hp : prices.length = 96) (hs : sunshine.length = 24) (hcfg : WellFormed cfg)
    (j : ℕ) (hj1 : 1 ≤ j) (hj2 : j ≤ 96) :
    (simulate_day cfg prices sunshine).soc_history.length = 97 ∧
    (simulate_day cfg prices sunshine).soc_history.getD 0 0 = 0 ∧
    (simulate_day cfg prices sunshine).soc_history.getD j 0
      = lastWriteSoC
          ((simulate_day cfg prices sunshine).actions.filter fun a => a.isPraznjenje)
          (chargeSumUpTo (simulate_day cfg prices sunshine).actions (j - 1)) j := by
  have hchrono := chargeFold_chrono cfg prices (solarEnergySeries cfg sunshine) 96
  set fwd := runCharge cfg prices (solarEnergySeries cfg sunshine) with hfwddef
  have hhist : (simulate_day cfg prices sunshine).soc_history
      = (runDischarge cfg prices fwd).socHistory := rfl
  have hacts : (simulate_day cfg prices sunshine).actions
      = (runDischarge cfg prices fwd).actions := rfl
  have hfwd96 : fwd.socHistory.length = 97 := hchrono.1
  have hnopz : ∀ a ∈ fwd.actions, a.isPraznjenje = false :=
    chargeFold_no_praznjenje cfg prices (solarEnergySeries cfg sunshine)
      (List.range 96) chargeInit (by intro x hx; cases hx)
  have hfilfwd : fwd.actions.filter (fun a => a.isPraznjenje) = [] :=
    List.filter_eq_nil_iff.2 (by intro a ha; simp [hnopz a ha])
  obtain ⟨dd, hdd, hddall⟩ := dischargeFold_actions_decomp
    (powerLimitPerInterval cfg) cfg.dischargeEfficiency
    (sortedSellCandidates cfg prices fwd) (dischargeInit fwd)
  have hcut : chargeSumUpTo (runDischarge cfg prices fwd).actions (j - 1)
      = chargeSumUpTo fwd.actions (j - 1) := by
    unfold runDischarge
    rw [hdd, chargeSumUpTo_append,
      chargeSumUpTo_eq_zero dd (j - 1)
        (fun a ha => Or.inl (isPraznjenje_not_isPunjenje a (hddall a ha))),
      add_zero]
    rfl
  refine ⟨?_, ?_, ?_⟩
  · rw [hhist]
    unfold runDischarge
    rw [dischargeFold_socHistory_length]
    exact hfwd96
  · rw [hhist]
    unfold runDischarge
    rw [dischargeFold_getD0]
    exact hchrono.2.2.2.1
  · rw [hhist, hacts, hcut]
    unfold runDischarge
    apply dischargeFold_lastWrite
    · exact hj1
    · rw [show (dischargeInit fwd).socHistory = fwd.socHistory from rfl, hfwd96]
      omega
    · rw [show (dischargeInit fwd).actions = fwd.actions from rfl, hfilfwd,
        lastWriteSoC_nil]
      exact hchrono.2.2.2.2 j hj1 hj2

/-! ## Concrete example inputs (used by counterexamples and witnesses) -/

/-- A well-formed example configuration: 1 MWh capacity, 1 MW power, perfect
efficiencies, 1 MW of solar, no minimum sell hour. -/
def exCfg : BatteryConfig := ⟨1, 1, 1, 1, 1, 0⟩

/-- Full sunshine in hour 0, darkness afterwards: the battery is completely
charged during intervals 0-3. -/
def exSun : List ℚ := 3600 :: List.replicate 23 0

/-- Price 5 at interval 10 and price 10 at interval 50, zero elsewhere: the
two discharge candidates are processed in the order 50, 10 — against
chronological order. -/
def exPricesSpike : List ℚ := ((List.replicate 96 (0:ℚ)).set 10 5).set 50 10

/-- Flat prices of 50 everywhere. -/
def exPricesFlat : List ℚ := List.replicate 96 (50:ℚ)

/-- Two equal price spikes of 5 at intervals 10 and 20, zero elsewhere. -/
def exPricesTie : List ℚ := ((List.replicate 96 (0:ℚ)).set 10 5).set 20 5

/-- Claim C3, counterexample: on the spike input the trace entry at index 12
is `1/2` (the remaining SoC written by the *last-processed* discharge, the one
at interval 10), while the chronological SoC after interval 11 — all charges
at intervals ≤ 11 minus all discharges at intervals ≤ 11 — is `3/4`, because
the higher-priced interval-50 discharge was processed first and its suffix
overwrite was then clobbered back to interval 11.  The trace entry is not the
chronological state of charge. -/
theorem C3_counterexample :
    (simulate_day exCfg exPricesSpike exSun).soc_history.getD 12 0
      ≠ specChronoSoC (simulate_day exCfg exPricesSpike exSun).actions 11 := by
  with_unfolding_all decide

/-! ## Claim C10: the day never delivers more than it produces -/

/-- Solar production is never negative when the installed power is
non-negative. -/
theorem solar_production_nonneg (cfg : BatteryConfig)
    (h : 0 ≤ cfg.installedSolarMW) (s : ℚ) : 0 ≤ solar_production cfg s := by
  unfold solar_production
  split_ifs with hs
  · exact le_rfl
  · push_neg at hs
    have h1 : (0:ℚ) ≤ s / 3600 := div_nonneg (le_of_lt hs) (by norm_num)
    have h2 : (0:ℚ) ≤ 0.25 := by norm_num
    exact mul_nonneg (mul_nonneg h h1) h2

theorem solarEnergySeries_nonneg (cfg : BatteryConfig) (sunshine : List ℚ)
    (h : 0 ≤ cfg.installedSolarMW) :
    ∀ x ∈ solarEnergySeries cfg sunshine, 0 ≤ x := by
  intro x hx
  obtain ⟨s, _, rfl⟩ := List.mem_map.1 hx
  exact solar_production_nonneg cfg h s

/-- The forward pass keeps `soc` equal to the total charged energy. -/
theorem chargeStep_soc_eq_totalCharged (cfg : BatteryConfig)
    (prices solarE : List ℚ) (st : ChargeState) (i : ℕ)
    (h : st.soc = st.totalCharged) :
    (chargeStep cfg prices solarE st i).soc
      = (chargeStep cfg prices solarE st i).totalCharged := by
  simp only [chargeStep]
  split_ifs <;> simp [h]

/-- The forward pass never decreases `totalCharged` below zero. -/
theorem chargeStep_totalCharged_nonneg (cfg : BatteryConfig)
    (prices solarE : List ℚ) (st : ChargeState) (i : ℕ)
    (h : 0 ≤ st.totalCharged) :
    0 ≤ (chargeStep cfg prices solarE st i).totalCharged := by
  simp only [chargeStep]
  split_ifs with hA hB hC
  · simp only []
    linarith
  · simp only []
    linarith
  · exact h
  · exact h
  · exact h

/-- One forward step accounts all solar energy: the direct-sale energy plus
the pre-loss equivalent of the charged energy grows by at most the interval's
solar energy. -/
theorem chargeStep_acct (cfg : BatteryConfig) (prices solarE : List ℚ)
    (st : ChargeState) (i : ℕ) (heta : 0 < cfg.chargeEfficiency)
    (hsol : 0 ≤ solarE.getD i 0) :
    (chargeStep cfg prices solarE st i).directSaleEnergy
        + (chargeStep cfg prices solarE st i).totalCharged / cfg.chargeEfficiency
      ≤ st.directSaleEnergy + st.totalCharged / cfg.chargeEfficiency
        + solarE.getD i 0 := by
  simp only [chargeStep]
  split_ifs with hA hB hC
  · -- charge plus direct sale of the remainder: exact accounting
    simp only []
    rw [add_div]
    linarith
  · -- charge only: `charge / eta ≤ solar`
    simp only []
    rw [add_div]
    have hle : min (solarE.getD i 0 * cfg.chargeEfficiency)
        (min (powerLimitPerInterval cfg) (cfg.capacityMWh - st.soc))
        ≤ solarE.getD i 0 * cfg.chargeEfficiency := min_le_left _ _
    have hdivle : min (solarE.getD i 0 * cfg.chargeEfficiency)
        (min (powerLimitPerInterval cfg) (cfg.capacityMWh - st.soc))
          / cfg.chargeEfficiency
        ≤ solarE.getD i 0 := by
      rw [div_le_iff₀ heta]
      exact hle
    linarith
  · -- non-positive charge: the whole energy goes to direct sale
    simp only []
    linarith
  · -- full battery: the whole energy goes to direct sale
    simp only []
    linarith
  · -- no solar: nothing changes
    linarith

/-- Accounting over the whole forward fold. -/
theorem chargeFold_acct (cfg : BatteryConfig) (prices solarE : List ℚ)
    (l : List ℕ) (st : ChargeState) (heta : 0 < cfg.chargeEfficiency)
    (hsol : ∀ x ∈ solarE, 0 ≤ x) :
    ((l.foldl (chargeStep cfg prices solarE) st).directSaleEnergy
        + (l.foldl (chargeStep cfg prices solarE) st).totalCharged
            / cfg.chargeEfficiency
      ≤ st.directSaleEnergy + st.totalCharged / cfg.chargeEfficiency
        + (l.map (fun i => solarE.getD i 0)).sum) ∧
    ((st.soc = st.totalCharged →
        (l.foldl (chargeStep cfg prices solarE) st).soc
          = (l.foldl (chargeStep cfg prices solarE) st).totalCharged) ∧
      (0 ≤ st.totalCharged →
        0 ≤ (l.foldl (chargeStep cfg prices solarE) st).totalCharged)) := by
  have hget : ∀ i : ℕ, 0 ≤ solarE.getD i 0 := by
    intro i
    rcases Nat.lt_or_ge i solarE.length with h | h
    · rw [List.getD_eq_getElem _ _ h]
      exact hsol _ (List.getElem_mem h)
    · rw [List.getD_eq_default _ _ h]
  induction l generalizing st with
  | nil =>
    exact ⟨by simp, fun h => h, fun h => h⟩
  | cons i l ih =>
    obtain ⟨ih1, ih2, ih3⟩ := ih (chargeStep cfg prices solarE st i)
    rw [List.foldl_cons, List.map_cons, List.sum_cons]
    refine ⟨?_, ?_, ?_⟩
    · have hstep := chargeStep_acct cfg prices solarE st i heta (hget i)
      linarith
    · intro h
      exact ih2 (chargeStep_soc_eq_totalCharged cfg prices solarE st i h)
    · intro h
      exact ih3 (chargeStep_totalCharged_nonneg cfg prices solarE st i h)

/-- The discharge fold conserves `batterySaleEnergy + etaDis * remaining`,
and keeps `remaining` non-negative. -/
theorem dischargeFold_acct (maxd etaDis : ℚ) (cs : List (ℕ × ℚ))
    (st : DischargeState) :
    ((cs.foldl (dischargeStep maxd etaDis) st).batterySaleEnergy
        + etaDis * (cs.foldl (dischargeStep maxd etaDis) st).remaining
      = st.batterySaleEnergy + etaDis * st.remaining) ∧
    (0 ≤ st.remaining → 0 ≤ (cs.foldl (dischargeStep maxd etaDis) st).remaining) := by
  induction cs generalizing st with
  | nil => exact ⟨rfl, fun h => h⟩
  | cons c cs ih =>
    obtain ⟨ih1, ih2⟩ := ih (dischargeStep maxd etaDis st c)
    rw [List.foldl_cons]
    have hstep1 : (dischargeStep maxd etaDis st c).batterySaleEnergy
        + etaDis * (dischargeStep maxd etaDis st c).remaining
        = st.batterySaleEnergy + etaDis * st.remaining := by
      simp only [dischargeStep]
      split_ifs
      · rfl
      · simp only []
        ring
      · rfl
    have hstep2 : 0 ≤ st.remaining → 0 ≤ (dischargeStep maxd etaDis st c).remaining := by
      intro h
      simp only [dischargeStep]
      split_ifs
      · exact h
      · simp only []
        have := min_le_left st.remaining maxd
        linarith
      · exact h
    exact ⟨by rw [ih1, hstep1], fun h => ih2 (hstep2 h)⟩

/-- Replicating each sunshine value four times produces four times as many
values. -/
theorem flatten_quadruple_length (l : List ℚ) :
    ((l.map fun s => [s, s, s, s]).flatten).length = 4 * l.length := by
  induction l with
  | nil => rfl
  | cons a t ih => simp [ih]; ring

/-- With 24 sunshine values there are exactly 96 interval energies. -/
theorem solarEnergySeries_length (cfg : BatteryConfig) (sunshine : List ℚ)
    (hs : sunshine.length = 24) :
    (solarEnergySeries cfg sunshine).length = 96 := by
  unfold solarEnergySeries
  rw [List.length_map, List.length_take, flatten_quadruple_length, hs]
  omega

/-- `getD` over `range (length l)` recovers the list. -/
theorem map_getD_range (l : List ℚ) :
    (List.range l.length).map (fun i => l.getD i 0) = l := by
  induction l with
  | nil => rfl
  | cons a t ih =>
    have hr : List.range (t.length + 1) = 0 :: (List.range t.length).map (· + 1) :=
      List.range_succ_eq_map t.length
    simp only [List.length_cons, hr, List.map_cons, List.getD_cons_zero,
      List.map_map]
    congr 1

/-- Claim C10: for every well-formed input, `total_delivered` is at most
`total_produced`, and equality forces either an unused battery or perfect
round-trip efficiency (no conversion loss). -/
theorem C10_day_energy_balance (cfg : BatteryConfig) (prices sunshine : List ℚ)
    (hp : prices.length = 96) (hs : sunshine.length = 24) (hcfg : WellFormed cfg) :
    (simulate_day cfg prices sunshine).total_delivered
      ≤ (simulate_day cfg prices sunshine).total_produced ∧
    ((simulate_day cfg prices sunshine).total_delivered
        = (simulate_day cfg prices sunshine).total_produced →
      (simulate_day cfg prices sunshine).battery_charged = 0 ∨
        (cfg.chargeEfficiency = 1 ∧ cfg.dischargeEfficiency = 1)) := by
  obtain ⟨hcap, hpow, hech, hech1, hedis, hedis1, hinst⟩ := hcfg
  set solarE := solarEnergySeries cfg sunshine with hsolE
  set fwd := runCharge cfg prices solarE with hfwddef
  set dis := runDischarge cfg prices fwd with hdisdef
  have hdel : (simulate_day cfg prices sunshine).total_delivered
      = fwd.directSaleEnergy + dis.batterySaleEnergy := rfl
  have hprod : (simulate_day cfg prices sunshine).total_produced = solarE.sum := rfl
  have hchg : (simulate_day cfg prices sunshine).battery_charged
      = fwd.totalCharged := rfl
  have hsolnn := solarEnergySeries_nonneg cfg sunshine (le_of_lt hinst)
  have hlen96 := solarEnergySeries_length cfg sunshine hs
  have hacct := chargeFold_acct cfg prices solarE (List.range 96) chargeInit hech
    (by rw [hsolE]; exact hsolnn)
  have hsum : ((List.range 96).map (fun i => solarE.getD i 0)).sum = solarE.sum := by
    have : List.range 96 = List.range solarE.length := by rw [hlen96]
    rw [this, map_getD_range]
  rw [hsum] at hacct
  have hf1 : fwd.directSaleEnergy + fwd.totalCharged / cfg.chargeEfficiency
      ≤ solarE.sum := by
    have := hacct.1
    simpa [chargeInit] using this
  have hf2 : fwd.soc = fwd.totalCharged := hacct.2.1 rfl
  have hf3 : 0 ≤ fwd.totalCharged := hacct.2.2 le_rfl
  have hdacct := dischargeFold_acct (powerLimitPerInterval cfg)
    cfg.dischargeEfficiency (sortedSellCandidates cfg prices fwd)
    (dischargeInit fwd)
  have hd1 : dis.batterySaleEnergy + cfg.dischargeEfficiency * dis.remaining
      = cfg.dischargeEfficiency * fwd.totalCharged := by
    have := hdacct.1
    rw [show (dischargeInit fwd).batterySaleEnergy = 0 from rfl,
      show (dischargeInit fwd).remaining = fwd.soc from rfl, hf2] at this
    rw [hdisdef]
    unfold runDischarge
    rw [this]
    ring
  have hd2 : 0 ≤ dis.remaining := by
    have := hdacct.2
    rw [show (dischargeInit fwd).remaining = fwd.soc from rfl, hf2] at this
    rw [hdisdef]
    unfold runDischarge
    exact this hf3
  -- abbreviations for the three product terms
  have ht1 : fwd.totalCharged ≤ fwd.totalCharged / cfg.chargeEfficiency := by
    rw [le_div_iff₀ hech]
    exact mul_le_of_le_one_right hf3 hech1
  have ht2 : cfg.dischargeEfficiency * fwd.totalCharged ≤ fwd.totalCharged :=
    mul_le_of_le_one_left hf3 hedis1
  have ht3 : 0 ≤ cfg.dischargeEfficiency * dis.remaining :=
    mul_nonneg (le_of_lt hedis) hd2
  constructor
  · rw [hdel, hprod]
    linarith
  · intro heq
    rw [hdel, hprod] at heq
    by_cases hC : fwd.totalCharged = 0
    · left
      rw [hchg]
      exact hC
    · right
      have hCpos : 0 < fwd.totalCharged := lt_of_le_of_ne hf3 (Ne.symm hC)
      -- all slack terms vanish
      have hz1 : fwd.totalCharged / cfg.chargeEfficiency = fwd.totalCharged := by
        linarith
      have hz2 : cfg.dischargeEfficiency * fwd.totalCharged = fwd.totalCharged := by
        linarith
      constructor
      · have hmul : fwd.totalCharged = fwd.totalCharged * cfg.chargeEfficiency := by
          rw [div_eq_iff (ne_of_gt hech)] at hz1
          linarith
        have : fwd.totalCharged * 1 = fwd.totalCharged * cfg.chargeEfficiency := by
          linarith
        exact (mul_left_cancel₀ hC this).symm
      · have : cfg.dischargeEfficiency * fwd.totalCharged
            = 1 * fwd.totalCharged := by linarith
        exact mul_right_cancel₀ hC this

/-! ## Order structure of the sorted candidate list -/

/-- The strict order in which the stable descending sort arranges the
candidates: strictly greater price first, price ties by ascending interval. -/
def priceOrd (a b : ℕ × ℚ) : Prop := b.2 < a.2 ∨ (a.2 = b.2 ∧ a.1 < b.1)

theorem mem_insertPriceDesc (c x : ℕ × ℚ) (l : List (ℕ × ℚ)) :
    x ∈ insertPriceDesc c l ↔ x = c ∨ x ∈ l := by
  rw [(insertPriceDesc_perm c l).mem_iff]
  exact List.mem_cons

theorem insertPriceDesc_pairwise (c : ℕ × ℚ) (l : List (ℕ × ℚ))
    (hl : l.Pairwise priceOrd) (hc : ∀ d ∈ l, c.2 = d.2 → c.1 < d.1) :
    (insertPriceDesc c l).Pairwise priceOrd := by
  induction l with
  | nil => exact List.pairwise_singleton _ _
  | cons d ds ih =>
    simp only [insertPriceDesc]
    obtain ⟨hd_ds, hds⟩ := List.pairwise_cons.1 hl
    split_ifs with hle
    · refine List.pairwise_cons.2 ⟨?_, hl⟩
      intro e he
      rcases List.mem_cons.1 he with rfl | he'
      · rcases lt_or_eq_of_le hle with h | h
        · exact Or.inl h
        · exact Or.inr ⟨h.symm, hc e (List.mem_cons_self _ _) h.symm⟩
      · rcases hd_ds e he' with h | h
        · exact Or.inl (lt_of_lt_of_le h hle)
        · rcases lt_or_eq_of_le hle with h2 | h2
          · exact Or.inl (h.1 ▸ h2)
          · exact Or.inr ⟨h2.symm.trans h.1,
              hc e (List.mem_cons_of_mem _ he') (h2.symm.trans h.1)⟩
    · push_neg at hle
      refine List.pairwise_cons.2
        ⟨?_, ih hds fun e he hp => hc e (List.mem_cons_of_mem _ he) hp⟩
      intro e he
      rcases (mem_insertPriceDesc c e ds).1 he with rfl | he'
      · exact Or.inl hle
      · exact hd_ds e he'

/-- When the input has strictly increasing intervals (as the chronologically
enumerated candidate list does), the stable descending sort is pairwise
ordered by `priceOrd`: descending prices, ties chronologically. -/
theorem sortPriceDesc_pairwise (l : List (ℕ × ℚ))
    (hl : l.Pairwise fun a b => a.1 < b.1) :
    (sortPriceDesc l).Pairwise priceOrd := by
  induction l with
  | nil => exact List.Pairwise.nil
  | cons c cs ih =>
    obtain ⟨hcc, hcs⟩ := List.pairwise_cons.1 hl
    refine insertPriceDesc_pairwise c (sortPriceDesc cs) (ih hcs) ?_
    intro d hd _
    exact hcc d ((sortPriceDesc_perm cs).mem_iff.1 hd)

/-- The chronologically enumerated candidates have strictly increasing
intervals. -/
theorem sellCandidates_pairwise_fst (cfg : BatteryConfig) (prices : List ℚ)
    (lastCharge : ℕ) :
    (sellCandidates cfg prices lastCharge).Pairwise fun a b => a.1 < b.1 := by
  unfold sellCandidates
  refine List.pairwise_filterMap.2 ?_
  refine (List.pairwise_lt_range 96).imp ?_
  intro a b hab x hx y hy
  split_ifs at hx hy with h1 h2
  · rw [Option.mem_some_iff] at hx hy
    rw [← hx, ← hy]
    exact hab
  all_goals cases hx <;> cases hy

theorem sellCandidates_fst_nodup (cfg : BatteryConfig) (prices : List ℚ)
    (lastCharge : ℕ) :
    ((sellCandidates cfg prices lastCharge).map Prod.fst).Nodup := by
  have hpw := sellCandidates_pairwise_fst cfg prices lastCharge
  unfold List.Nodup
  exact List.pairwise_map.2 (hpw.imp fun h => Nat.ne_of_lt h)

theorem sortedSellCandidates_fst_nodup (cfg : BatteryConfig) (prices : List ℚ)
    (fwd : ChargeState) :
    ((sortedSellCandidates cfg prices fwd).map Prod.fst).Nodup := by
  unfold sortedSellCandidates
  rcases hl : fwd.chargeIntervals.getLast? with _ | lc <;> simp only [hl]
  · exact List.Pairwise.nil
  split_ifs
  · have hperm := (sortPriceDesc_perm (sellCandidates cfg prices lc)).map Prod.fst
    exact hperm.nodup_iff.2 (sellCandidates_fst_nodup cfg prices lc)
  · exact List.Pairwise.nil

/-- Every sorted candidate records the price at its own interval. -/
theorem mem_sortedSellCandidates_snd (cfg : BatteryConfig) (prices : List ℚ)
    (fwd : ChargeState) (c : ℕ × ℚ)
    (h : c ∈ sortedSellCandidates cfg prices fwd) :
    c.2 = prices.getD c.1 0 := by
  unfold sortedSellCandidates at h
  rcases hl : fwd.chargeIntervals.getLast? with _ | lc <;> simp only [hl] at h
  · cases h
  split_ifs at h
  · exact (mem_sellCandidates cfg prices lc c
      ((mem_sortPriceDesc _ c).1 h)).2.2.2.1
  · cases h

/-! ## Claim C7: the average discharge settlement price -/

/-- Once the battery is empty for the discharge loop, nothing more happens. -/
theorem dischargeFold_stuck (maxd etaDis : ℚ) (cs : List (ℕ × ℚ))
    (st : DischargeState) (h : st.remaining ≤ 0) :
    cs.foldl (dischargeStep maxd etaDis) st = st := by
  induction cs with
  | nil => rfl
  | cons c cs ih =>
    have hstep : dischargeStep maxd etaDis st c = st := by
      simp only [dischargeStep]
      rw [if_pos h]
    rw [List.foldl_cons, hstep]
    exact ih

/-- The candidates actually used by the discharge loop form a prefix of the
sorted candidate list: the recorded sale intervals are the first `k`
candidate intervals and the appended discharge actions carry exactly those
`k` interval/price pairs, in order. -/
theorem dischargeFold_used_take (maxd etaDis : ℚ) (hmaxd : 0 < maxd)
    (cs : List (ℕ × ℚ)) (st : DischargeState) :
    ∃ k, k ≤ cs.length ∧
      (cs.foldl (dischargeStep maxd etaDis) st).batterySaleIntervals
        = st.batterySaleIntervals ++ (cs.take k).map Prod.fst ∧
      ∃ d, (cs.foldl (dischargeStep maxd etaDis) st).actions = st.actions ++ d ∧
        d.map (fun a => (a.interval, a.cijena)) = cs.take k ∧
        ∀ a ∈ d, a.isPraznjenje = true := by
  induction cs generalizing st with
  | nil => exact ⟨0, le_rfl, by simp, [], by simp, rfl, by simp⟩
  | cons c cs ih =>
    by_cases hrem : st.remaining ≤ 0
    · rw [dischargeFold_stuck maxd etaDis (c :: cs) st hrem]
      exact ⟨0, Nat.zero_le _, by simp, [], by simp, rfl, by simp⟩
    · have hsell : 0 < min st.remaining maxd := lt_min (lt_of_not_le hrem) hmaxd
      have hstep : dischargeStep maxd etaDis st c
          = { remaining := st.remaining - min st.remaining maxd
              batterySaleProfit := st.batterySaleProfit
                + min st.remaining maxd * etaDis * c.2
              batterySaleEnergy := st.batterySaleEnergy
                + min st.remaining maxd * etaDis
              batterySaleIntervals := st.batterySaleIntervals ++ [c.1]
              actions := st.actions ++ [.praznjenje c.1 (min st.remaining maxd)
                c.2 (st.remaining - min st.remaining maxd)]
              socHistory := overwriteFrom st.socHistory (c.1 + 1)
                (st.remaining - min st.remaining maxd) } := by
        simp only [dischargeStep]
        rw [if_neg hrem, if_pos hsell]
      obtain ⟨k, hk, hBSI, d, hd, hpair, hall⟩ :=
        ih (dischargeStep maxd etaDis st c)
      refine ⟨k + 1, by simpa using hk, ?_,
        Action.praznjenje c.1 (min st.remaining maxd) c.2
          (st.remaining - min st.remaining maxd) :: d, ?_, ?_, ?_⟩
      · rw [List.foldl_cons, hBSI, hstep]
        simp [List.take_succ_cons]
      · rw [List.foldl_cons, hd, hstep]
        simp
      · simp [hpair, List.take_succ_cons]
      · intro a ha
        rcases List.mem_cons.1 ha with rfl | ha'
        · rfl
        · exact hall a ha'

/-- The forward pass's action list survives the discharge-type filter as the
empty list. -/
theorem runCharge_filter_praz (cfg : BatteryConfig) (prices solarE : List ℚ) :
    (runCharge cfg prices solarE).actions.filter (fun a => a.isPraznjenje) = [] :=
  List.filter_eq_nil_iff.2 (by
    intro a ha
    simp [chargeFold_no_praznjenje cfg prices solarE (List.range 96) chargeInit
      (by intro x hx; cases hx) a ha])

/-- Filtering the candidate list by membership of its own first-`k`
intervals recovers exactly the prefix, thanks to interval distinctness. -/
theorem filter_contains_take (cs : List (ℕ × ℚ)) (k : ℕ)
    (hnd : (cs.map Prod.fst).Nodup) :
    cs.filter (fun c => ((cs.take k).map Prod.fst).contains c.1) = cs.take k := by
  set A := cs.take k with hA
  set B := cs.drop k with hB
  have hcs : cs = A ++ B := (List.take_append_drop k cs).symm
  have hnd2 : (A.map Prod.fst ++ B.map Prod.fst).Nodup := by
    rw [← List.map_append, ← hcs]
    exact hnd
  have hdisj := (List.nodup_append.1 hnd2).2.2
  have h1 : A.filter (fun c => (A.map Prod.fst).contains c.1) = A := by
    rw [List.filter_eq_self]
    intro c hc
    have : c.1 ∈ A.map Prod.fst := List.mem_map_of_mem _ hc
    simpa using this
  have h2 : B.filter (fun c => (A.map Prod.fst).contains c.1) = [] := by
    rw [List.filter_eq_nil_iff]
    intro c hc hcon
    have hmem1 : c.1 ∈ A.map Prod.fst := by simpa using hcon
    have hmem2 : c.1 ∈ B.map Prod.fst := List.mem_map_of_mem _ hc
    exact hdisj hmem1 hmem2
  rw [hcs, List.filter_append, h1, h2, List.append_nil]

/-- Claim C7: when at least one discharge happens, `battery_sale_price` is
the arithmetic mean of the prices of exactly those intervals at which a
`Discharge` action was recorded, and it is `0` when no discharge occurs. -/
theorem C7_battery_sale_price (cfg : BatteryConfig) (prices sunshine : List ℚ)
    (hp : prices.length = 96) (hs : sunshine.length = 24) (hcfg : WellFormed cfg) :
    ((simulate_day cfg prices sunshine).actions.filter
        (fun a => a.isPraznjenje) = [] →
      (simulate_day cfg prices sunshine).battery_sale_price = 0) ∧
    ((simulate_day cfg prices sunshine).actions.filter
        (fun a => a.isPraznjenje) ≠ [] →
      (simulate_day cfg prices sunshine).battery_sale_price
        = npMean (((simulate_day cfg prices sunshine).actions.filter
            fun a => a.isPraznjenje).map fun a => prices.getD a.interval 0)) := by
  set fwd := runCharge cfg prices (solarEnergySeries cfg sunshine) with hfwddef
  set cands := sortedSellCandidates cfg prices fwd with hcandsdef
  have hmaxd : 0 < powerLimitPerInterval cfg :=
    mul_pos hcfg.2.1 (by norm_num)
  obtain ⟨k, hk, hBSI, d, hd, hpair, hall⟩ := dischargeFold_used_take
    (powerLimitPerInterval cfg) cfg.dischargeEfficiency hmaxd cands
    (dischargeInit fwd)
  have hBSI' : (runDischarge cfg prices fwd).batterySaleIntervals
      = (cands.take k).map Prod.fst := by
    unfold runDischarge
    rw [← hcandsdef, hBSI, show (dischargeInit fwd).batterySaleIntervals = []
      from rfl, List.nil_append]
  have hacts : (simulate_day cfg prices sunshine).actions
      = (runDischarge cfg prices fwd).actions := rfl
  have hfil : (simulate_day cfg prices sunshine).actions.filter
      (fun a => a.isPraznjenje) = d := by
    rw [hacts]
    unfold runDischarge
    rw [← hcandsdef, hd, List.filter_append,
      show (dischargeInit fwd).actions = fwd.actions from rfl,
      runCharge_filter_praz, List.nil_append, List.filter_eq_self.2]
    intro a ha
    simp [hall a ha]
  have hprice : (simulate_day cfg prices sunshine).battery_sale_price
      = batterySalePriceOf cands (runDischarge cfg prices fwd) := rfl
  constructor
  · intro hnil
    rw [hfil] at hnil
    have htk : cands.take k = [] := by
      rw [← hpair, hnil]
      rfl
    have hempty : (runDischarge cfg prices fwd).batterySaleIntervals.isEmpty
        = true := by
      rw [hBSI', htk]
      rfl
    rw [hprice]
    unfold batterySalePriceOf
    rw [if_pos hempty]
  · intro hne
    rw [hfil] at hne
    have htake : cands.take k ≠ [] := by
      intro h0
      rw [h0] at hpair
      exact hne (List.map_eq_nil_iff.1 hpair)
    have hempty : ¬ ((runDischarge cfg prices fwd).batterySaleIntervals.isEmpty
        = true) := by
      rw [hBSI']
      rcases h' : cands.take k with _ | ⟨x, xs⟩
      · exact absurd h' htake
      · simp
    rw [hprice]
    unfold batterySalePriceOf
    rw [if_neg hempty]
    rw [hBSI', filter_contains_take cands k
      (sortedSellCandidates_fst_nodup cfg prices fwd), hfil]
    -- both mean arguments are the prices of the used candidates, in order
    have hmapd : d.map (fun a => prices.getD a.interval 0)
        = (cands.take k).map Prod.snd := by
      have hcij : ∀ a ∈ d, prices.getD a.interval 0 = a.cijena := by
        intro a ha
        have hpairmem : (a.interval, a.cijena) ∈ cands.take k := by
          rw [← hpair]
          exact List.mem_map_of_mem _ ha
        have hmemc : (a.interval, a.cijena) ∈ cands :=
          List.mem_of_mem_take hpairmem
        exact (mem_sortedSellCandidates_snd cfg prices fwd _ hmemc).symm
      calc d.map (fun a => prices.getD a.interval 0)
          = d.map (fun a => a.cijena) := List.map_congr_left hcij
        _ = (d.map (fun a => (a.interval, a.cijena))).map Prod.snd := by
            rw [List.map_map]
            rfl
        _ = (cands.take k).map Prod.snd := by rw [hpair]
    rw [hmapd]

/-! ## Claim C9: deterministic tie-break for equal prices -/

theorem sortedSellCandidates_pairwise (cfg : BatteryConfig) (prices : List ℚ)
    (fwd : ChargeState) :
    (sortedSellCandidates cfg prices fwd).Pairwise priceOrd := by
  unfold sortedSellCandidates
  rcases hl : fwd.chargeIntervals.getLast? with _ | lc <;> simp only [hl]
  · exact List.Pairwise.nil
  split_ifs
  · exact sortPriceDesc_pairwise _ (sellCandidates_pairwise_fst cfg prices lc)
  · exact List.Pairwise.nil

/-- In a `priceOrd`-sorted list, an element with the same price but smaller
interval appears before: the two form a sublist in that order. -/
theorem priceOrd_pairwise_two_sublist (l : List (ℕ × ℚ))
    (hl : l.Pairwise priceOrd) (c1 c2 : ℕ × ℚ) (h1 : c1 ∈ l) (h2 : c2 ∈ l)
    (hpeq : c1.2 = c2.2) (hlt : c1.1 < c2.1) :
    List.Sublist [c1, c2] l := by
  induction l with
  | nil => cases h1
  | cons h t ih =>
    obtain ⟨hh, hp⟩ := List.pairwise_cons.1 hl
    rcases List.mem_cons.1 h1 with rfl | h1'
    · have hc2t : c2 ∈ t := by
        rcases List.mem_cons.1 h2 with heq | h2'
        · rw [← heq] at hlt
          omega
        · exact h2'
      exact List.Sublist.cons₂ c1 (List.singleton_sublist.2 hc2t)
    · rcases List.mem_cons.1 h2 with rfl | h2'
      · rcases hh c1 h1' with hcase | hcase
        · rw [hpeq] at hcase
          exact absurd hcase (lt_irrefl _)
        · omega
      · exact List.Sublist.cons h (ih hp h1' h2')

/-- Membership in the chronologically enumerated candidate list from the
eligibility conditions. -/
theorem sellCandidates_mem_of (cfg : BatteryConfig) (prices : List ℚ)
    (lastCharge j : ℕ) (h1 : lastCharge + 1 ≤ j) (h2 : cfg.minSellHour ≤ j / 4)
    (h3 : 0 < prices.getD j 0) (h4 : j < 96) :
    (j, prices.getD j 0) ∈ sellCandidates cfg prices lastCharge := by
  unfold sellCandidates
  refine List.mem_filterMap.2 ⟨j, List.mem_range.2 h4, ?_⟩
  rw [if_pos ⟨h1, h2, h3⟩]

/-- Claim C9: price ties among discharge candidates are broken by ascending
interval.  If interval `j2` received a discharge, then any
earlier eligible interval `j1` with exactly the same price also received one,
and it was recorded before `j2` — the two appear in the returned
`battery_sale_intervals` in chronological order. -/
theorem C9_tie_break (cfg : BatteryConfig) (prices sunshine : List ℚ)
    (hp : prices.length = 96) (hs : sunshine.length = 24) (hcfg : WellFormed cfg)
    (j1 j2 : ℕ) (hlt : j1 < j2)
    (hpr : prices.getD j1 0 = prices.getD j2 0)
    (hj2 : j2 ∈ (simulate_day cfg prices sunshine).battery_sale_intervals)
    (hafter : ∀ b ∈ (simulate_day cfg prices sunshine).charge_intervals, b < j1)
    (hhour : cfg.minSellHour ≤ j1 / 4)
    (hpos : 0 < prices.getD j1 0) (hj1r : j1 < 96) :
    j1 ∈ (simulate_day cfg prices sunshine).battery_sale_intervals ∧
      List.Sublist [j1, j2]
        (simulate_day cfg prices sunshine).battery_sale_intervals := by
  set fwd := runCharge cfg prices (solarEnergySeries cfg sunshine) with hfwddef
  set cands := sortedSellCandidates cfg prices fwd with hcandsdef
  have hmaxd : 0 < powerLimitPerInterval cfg := mul_pos hcfg.2.1 (by norm_num)
  obtain ⟨k, hk, hBSI, d, hd, hpair, hall⟩ := dischargeFold_used_take
    (powerLimitPerInterval cfg) cfg.dischargeEfficiency hmaxd cands
    (dischargeInit fwd)
  have hBSI' : (simulate_day cfg prices sunshine).battery_sale_intervals
      = (cands.take k).map Prod.fst := by
    show (runDischarge cfg prices fwd).batterySaleIntervals
      = (cands.take k).map Prod.fst
    unfold runDischarge
    rw [← hcandsdef, hBSI, show (dischargeInit fwd).batterySaleIntervals = []
      from rfl, List.nil_append]
  rw [hBSI'] at hj2 ⊢
  obtain ⟨c2, hc2take, hc2fst⟩ := List.mem_map.1 hj2
  have hc2mem : c2 ∈ cands := List.mem_of_mem_take hc2take
  have hc2snd : c2.2 = prices.getD j2 0 := by
    rw [← hc2fst]
    exact mem_sortedSellCandidates_snd cfg prices fwd c2 hc2mem
  -- identify the branch that produced a non-empty candidate list
  rcases hlast : fwd.chargeIntervals.getLast? with _ | lc
  · exfalso
    have hcnil : cands = [] := by
      rw [hcandsdef]
      unfold sortedSellCandidates
      simp only [hlast]
    rw [hcnil] at hc2take
    simp at hc2take
  by_cases hsoc : 0 < fwd.soc
  swap
  · exfalso
    have hcnil : cands = [] := by
      rw [hcandsdef]
      unfold sortedSellCandidates
      simp only [hlast, if_neg hsoc]
    rw [hcnil] at hc2take
    simp at hc2take
  have hceq : cands = sortPriceDesc (sellCandidates cfg prices lc) := by
    rw [hcandsdef]
    unfold sortedSellCandidates
    simp only [hlast, if_pos hsoc]
  -- the tied earlier interval is itself a candidate
  have hlc : lc ∈ fwd.chargeIntervals := List.mem_of_getLast?_eq_some hlast
  have hlcj1 : lc + 1 ≤ j1 := hafter lc hlc
  have hc1memsc : (j1, prices.getD j1 0) ∈ sellCandidates cfg prices lc :=
    sellCandidates_mem_of cfg prices lc j1 hlcj1 hhour hpos hj1r
  set c1 : ℕ × ℚ := (j1, prices.getD j1 0) with hc1def
  have hc1mem : c1 ∈ cands := by
    rw [hceq]
    exact (mem_sortPriceDesc _ c1).2 hc1memsc
  have hpw : cands.Pairwise priceOrd :=
    sortedSellCandidates_pairwise cfg prices fwd
  have hc1snd : c1.2 = c2.2 := by
    rw [hc1def, hc2snd]
    exact hpr
  have hc1fst : c1.1 < c2.1 := by
    rw [hc1def, hc2fst]
    exact hlt
  -- c1 cannot sit in the unused suffix
  have hc1take : c1 ∈ cands.take k := by
    have hsplit : cands = cands.take k ++ cands.drop k :=
      (List.take_append_drop k cands).symm
    have hpw2 : (cands.take k ++ cands.drop k).Pairwise priceOrd := by
      rw [← hsplit]
      exact hpw
    rcases List.mem_append.1 (by rw [← hsplit]; exact hc1mem) with h | h
    · exact h
    · exfalso
      have hord := (List.pairwise_append.1 hpw2).2.2 c2 hc2take c1 h
      rcases hord with hcase | hcase
      · rw [hc1snd] at hcase
        exact absurd hcase (lt_irrefl _)
      · omega
  constructor
  · rw [show j1 = c1.1 from rfl]
    exact List.mem_map_of_mem Prod.fst hc1take
  · have hsub : List.Sublist [c1, c2] (cands.take k) :=
      priceOrd_pairwise_two_sublist (cands.take k)
        (hpw.sublist (List.take_sublist k cands)) c1 c2 hc1take hc2take
        hc1snd hc1fst
    have := hsub.map Prod.fst
    simpa [hc2fst] using this

/-! ## Claim C8: the full-sun, flat-price scenario -/

/-- A full day of maximal sunshine: 24 hourly values of 3600 seconds. -/
def exSunFull : List ℚ := List.replicate 24 (3600:ℚ)

/-- Once the battery is exactly at capacity and there is solar, a forward
step sells the whole interval's energy directly, changing nothing else. -/
theorem chargeStep_at_capacity (cfg : BatteryConfig) (prices solarE : List ℚ)
    (st : ChargeState) (i : ℕ) (hfull : st.soc = cfg.capacityMWh)
    (hsolar : 0 < solarE.getD i 0) :
    chargeStep cfg prices solarE st i =
      { st with
        directSaleRevenue := st.directSaleRevenue
          + solarE.getD i 0 * prices.getD i 0
        directSaleEnergy := st.directSaleEnergy + solarE.getD i 0
        actions := st.actions
          ++ [.direktnaProdaja i (solarE.getD i 0) (prices.getD i 0) st.soc]
        socHistory := st.socHistory ++ [st.soc] } := by
  simp only [chargeStep]
  rw [if_neg (by rw [hfull]; exact fun h => lt_irrefl _ h.2), if_pos hsolar]

/-- Folding sunny intervals over a battery at capacity only appends direct
sales, one per interval, in order. -/
theorem chargeFold_at_capacity (cfg : BatteryConfig) (prices solarE : List ℚ)
    (l : List ℕ) (st : ChargeState) (hfull : st.soc = cfg.capacityMWh)
    (hsolar : ∀ i ∈ l, 0 < solarE.getD i 0) :
    (l.foldl (chargeStep cfg prices solarE) st).soc = st.soc ∧
    (l.foldl (chargeStep cfg prices solarE) st).chargeIntervals
      = st.chargeIntervals ∧
    (l.foldl (chargeStep cfg prices solarE) st).totalCharged
      = st.totalCharged ∧
    (l.foldl (chargeStep cfg prices solarE) st).actions
      = st.actions ++ l.map (fun i =>
          .direktnaProdaja i (solarE.getD i 0) (prices.getD i 0) st.soc) := by
  induction l generalizing st with
  | nil => exact ⟨rfl, rfl, rfl, by simp⟩
  | cons i l ih =>
    rw [List.foldl_cons]
    set st' := chargeStep cfg prices solarE st i with hst'
    have hstep := chargeStep_at_capacity cfg prices solarE st i hfull
      (hsolar i (List.mem_cons_self i l))
    have hsoc2 : st'.soc = st.soc := by
      rw [hst', hstep]
    have hsoc' : st'.soc = cfg.capacityMWh := by
      rw [hsoc2]
      exact hfull
    obtain ⟨g1, g2, g3, g4⟩ := ih st' hsoc'
      (fun j hj => hsolar j (List.mem_cons_of_mem i hj))
    refine ⟨?_, ?_, ?_, ?_⟩
    · rw [g1, hsoc2]
    · rw [g2, hst', hstep]
    · rw [g3, hst', hstep]
    · rw [g4, hsoc2]
      rw [show st'.actions = st.actions
          ++ [Action.direktnaProdaja i (solarE.getD i 0) (prices.getD i 0) st.soc]
        from by rw [hst', hstep]]
      simp

/-- Direct-sale energy recorded by a run of one-per-interval direct sales. -/
theorem directSaleEnergyAt_map_dir (l : List ℕ) (hnd : l.Nodup) (e p s : ℚ)
    (i : ℕ) (hi : i ∈ l) :
    directSaleEnergyAt (l.map fun j => Action.direktnaProdaja j e p s) i = e := by
  induction l with
  | nil => cases hi
  | cons j t ih =>
    rw [List.map_cons, ← List.singleton_append, directSaleEnergyAt_append]
    rcases List.mem_cons.1 hi with rfl | hmem
    · rw [directSaleEnergyAt_single_dir,
        directSaleEnergyAt_eq_zero _ _ ?_, add_zero]
      intro a ha
      obtain ⟨j', hj', rfl⟩ := List.mem_map.1 ha
      right
      simp only [Action.interval_direktna]
      intro h
      exact (List.nodup_cons.1 hnd).1 (h ▸ hj')
    · have hji : j ≠ i := fun h => (List.nodup_cons.1 hnd).1 (h ▸ hmem)
      rw [directSaleEnergyAt_eq_zero _ _ ?_, zero_add,
        ih (List.nodup_cons.1 hnd).2 hmem]
      intro a ha
      rcases List.mem_singleton.1 ha with rfl
      right
      simpa using hji

/-- The forward state after the first four intervals of the full-sun,
flat-price scenario, computed by evaluation: the battery fills by
0.25 MWh per interval with no remainder to sell. -/
def c8S4 : ChargeState :=
  { soc := 1, socHistory := [0, 1/4, 1/2, 3/4, 1],
    actions := [.punjenje 0 (1/4) (1/4) 50 (1/4), .punjenje 1 (1/4) (1/4) 50 (1/2),
      .punjenje 2 (1/4) (1/4) 50 (3/4), .punjenje 3 (1/4) (1/4) 50 1],
    totalCharged := 1, chargeIntervals := [0, 1, 2, 3],
    directSaleRevenue := 0, directSaleEnergy := 0 }

theorem c8_solarE : solarEnergySeries exCfg exSunFull = List.replicate 96 (1/4:ℚ) := by
  with_unfolding_all decide

theorem c8_first4 :
    (List.range 4).foldl
      (chargeStep exCfg exPricesFlat (solarEnergySeries exCfg exSunFull))
      chargeInit = c8S4 := by
  with_unfolding_all decide

/-- Claim C8: with full sun, flat price 50, capacity 1 MWh, power 1 MW and
perfect efficiencies, the battery charges at exactly 0.25 MWh in each of the
first 4 intervals (1 MWh in total) with no direct sale there, and every
interval from 5 through 95 sells its full 0.25 MWh directly at price 50. -/
theorem C8_full_sun_flat_price :
    (simulate_day exCfg exPricesFlat exSunFull).battery_charged = 1 ∧
    (∀ i ∈ [0, 1, 2, 3],
      chargeEnergyAt (simulate_day exCfg exPricesFlat exSunFull).actions i
          = 0.25 ∧
      directSaleEnergyAt (simulate_day exCfg exPricesFlat exSunFull).actions i
          = 0) ∧
    (∀ i ∈ List.range 96, 5 ≤ i →
      chargeEnergyAt (simulate_day exCfg exPricesFlat exSunFull).actions i
          = 0 ∧
      directSaleEnergyAt (simulate_day exCfg exPricesFlat exSunFull).actions i
          = 0.25 ∧
      Action.direktnaProdaja i 0.25 50 1
        ∈ (simulate_day exCfg exPricesFlat exSunFull).actions) := by
  have hsolget : ∀ i, i < 96 → (solarEnergySeries exCfg exSunFull).getD i 0 = 1/4 := by
    intro i hi
    rw [c8_solarE, List.getD_eq_getElem _ _ (by simpa using hi),
      List.getElem_replicate]
  have hpget : ∀ i, i < 96 → exPricesFlat.getD i 0 = 50 := by
    intro i hi
    rw [show exPricesFlat = List.replicate 96 (50:ℚ) from rfl,
      List.getD_eq_getElem _ _ (by simpa using hi), List.getElem_replicate]
  have hsplit : List.range 96 = List.range 4 ++ List.range' 4 92 := by decide
  have hmemr : ∀ i ∈ List.range' 4 92, 4 ≤ i ∧ i < 96 := by
    intro i hi
    obtain ⟨k, hk, rfl⟩ := List.mem_range'.1 hi
    omega
  obtain ⟨hksoc, hkci, hktc, hkact⟩ := chargeFold_at_capacity exCfg exPricesFlat
    (solarEnergySeries exCfg exSunFull) (List.range' 4 92) c8S4 rfl
    (fun i hi => by rw [hsolget i (hmemr i hi).2]; norm_num)
  have hmap : (List.range' 4 92).map (fun i =>
      Action.direktnaProdaja i ((solarEnergySeries exCfg exSunFull).getD i 0)
        (exPricesFlat.getD i 0) c8S4.soc)
      = (List.range' 4 92).map (fun i => Action.direktnaProdaja i (1/4) 50 1) := by
    apply List.map_congr_left
    intro i hi
    rw [hsolget i (hmemr i hi).2, hpget i (hmemr i hi).2]
    rfl
  have hfwdact : (runCharge exCfg exPricesFlat
      (solarEnergySeries exCfg exSunFull)).actions
      = c8S4.actions ++ (List.range' 4 92).map
          (fun i => Action.direktnaProdaja i (1/4) 50 1) := by
    unfold runCharge
    rw [hsplit, List.foldl_append, c8_first4, hkact, hmap]
  have hfwdtc : (runCharge exCfg exPricesFlat
      (solarEnergySeries exCfg exSunFull)).totalCharged = 1 := by
    unfold runCharge
    rw [hsplit, List.foldl_append, c8_first4, hktc]
    rfl
  set fwd := runCharge exCfg exPricesFlat (solarEnergySeries exCfg exSunFull)
    with hfwddef
  obtain ⟨dd, hdd, hddall⟩ := dischargeFold_actions_decomp
    (powerLimitPerInterval exCfg) exCfg.dischargeEfficiency
    (sortedSellCandidates exCfg exPricesFlat fwd) (dischargeInit fwd)
  have hract : (simulate_day exCfg exPricesFlat exSunFull).actions
      = fwd.actions ++ dd := by
    show (runDischarge exCfg exPricesFlat fwd).actions = fwd.actions ++ dd
    unfold runDischarge
    rw [hdd]
    rfl
  have hcAt : ∀ i : ℕ, chargeEnergyAt
      (simulate_day exCfg exPricesFlat exSunFull).actions i
      = chargeEnergyAt c8S4.actions i := by
    intro i
    have hz1 : chargeEnergyAt dd i = 0 :=
      chargeEnergyAt_eq_zero dd i (fun a ha =>
        Or.inl (isPraznjenje_not_isPunjenje a (hddall a ha)))
    have hz2 : chargeEnergyAt ((List.range' 4 92).map
        (fun j => Action.direktnaProdaja j (1/4) 50 1)) i = 0 := by
      apply chargeEnergyAt_eq_zero
      intro a ha
      obtain ⟨j, hj, rfl⟩ := List.mem_map.1 ha
      left
      rfl
    rw [hract, chargeEnergyAt_append, hfwdact, chargeEnergyAt_append,
      hz1, hz2, add_zero, add_zero]
  have hdAt : ∀ i : ℕ, directSaleEnergyAt
      (simulate_day exCfg exPricesFlat exSunFull).actions i
      = directSaleEnergyAt ((List.range' 4 92).map
          (fun j => Action.direktnaProdaja j (1/4) 50 1)) i := by
    intro i
    have hz1 : directSaleEnergyAt dd i = 0 :=
      directSaleEnergyAt_eq_zero dd i (fun a ha =>
        Or.inl (isPraznjenje_not_isDirektna a (hddall a ha)))
    have hz2 : directSaleEnergyAt c8S4.actions i = 0 := by
      apply directSaleEnergyAt_eq_zero
      intro a ha
      left
      fin_cases ha <;> rfl
    rw [hract, directSaleEnergyAt_append, hfwdact, directSaleEnergyAt_append,
      hz1, hz2, add_zero, zero_add]
  have hnd92 : (List.range' 4 92).Nodup := by
    have := List.nodup_range 96
    rw [hsplit] at this
    exact (List.nodup_append.1 this).2.1
  refine ⟨?_, ?_, ?_⟩
  · show fwd.totalCharged = 1
    exact hfwdtc
  · intro i hi
    have hbound : i < 4 := by fin_cases hi <;> omega
    constructor
    · rw [hcAt i]
      fin_cases hi <;> with_unfolding_all decide
    · rw [hdAt i]
      apply directSaleEnergyAt_eq_zero
      intro a ha
      obtain ⟨j, hj, rfl⟩ := List.mem_map.1 ha
      right
      have := (hmemr j hj).1
      simp only [Action.interval_direktna]
      omega
  · intro i hi h5
    have hi96 : i < 96 := List.mem_range.1 hi
    have hi92 : i ∈ List.range' 4 92 := by
      refine List.mem_range'.2 ⟨i - 4, by omega, by omega⟩
    have h025 : (0.25 : ℚ) = 1/4 := by norm_num
    refine ⟨?_, ?_, ?_⟩
    · rw [hcAt i]
      apply chargeEnergyAt_eq_zero
      intro a ha
      right
      have hlt4 : a.interval < 4 := by
        fin_cases ha <;> simp
      omega
    · rw [hdAt i, h025]
      exact directSaleEnergyAt_map_dir (List.range' 4 92) hnd92 (1/4) 50 1 i hi92
    · rw [hract, h025]
      refine List.mem_append_left _ ?_
      rw [hfwdact]
      refine List.mem_append_right _ ?_
      exact List.mem_map_of_mem _ hi92

/-! ## Claim C6: totality of `simulate_day` over its declared input shapes

A checked model of the same code: every list access uses `l[i]?` and fails
where Python's `l[i]` would raise, and every division is guarded by a check
that its divisor is strictly positive.  The totality claim is then: on
well-formed inputs the checked model returns `some` of the total model's
result. -/

/-- Failure-point list map: `none` as soon as one element fails. -/
def mapOptionQ (f : ℚ → Option ℚ) : List ℚ → Option (List ℚ)
  | [] => some []
  | a :: l =>
    match f a, mapOptionQ f l with
    | some b, some bs => some (b :: bs)
    | _, _ => none

/-- Failure-point fold: `none` as soon as one step fails. -/
def foldlOption {σ α : Type} (f : σ → α → Option σ) : σ → List α → Option σ
  | st, [] => some st
  | st, a :: l =>
    match f st a with
    | some st2 => foldlOption f st2 l
    | none => none

/-- `solar_production` with the `/3600` divisor guarded. -/
def solar_production_checked (cfg : BatteryConfig) (sunshine_sec : ℚ) :
    Option ℚ :=
  if sunshine_sec ≤ 0 then some 0
  else if 0 < (3600:ℚ) then
    some (cfg.installedSolarMW * (sunshine_sec / 3600) * 0.25)
  else none

/-- The expansion and production step of `simulate_day`, checked. -/
def solarEnergySeries_checked (cfg : BatteryConfig) (sunshine : List ℚ) :
    Option (List ℚ) :=
  mapOptionQ (solar_production_checked cfg)
    ((sunshine.map (fun s => [s, s, s, s])).flatten.take 96)

/-- The `solar_power` entries (line 229), with the `/0.25` divisor guarded. -/
def solarPower_checked (solarEnergy : List ℚ) : Option (List ℚ) :=
  mapOptionQ
    (fun e =>
      if 0 < e then (if 0 < (0.25:ℚ) then some (e / 0.25) else none) else some 0)
    solarEnergy

/-- One forward iteration, checked: `prices[i]` and `solar_energy_15min[i]`
may fail, and the `/chargeEfficiency` divisor is guarded. -/
def chargeStep_checked (cfg : BatteryConfig) (prices solarE : List ℚ)
    (st : ChargeState) (i : ℕ) : Option ChargeState :=
  match solarE[i]?, prices[i]? with
  | some solar, some price =>
    let stOpt : Option ChargeState :=
      if 0 < solar ∧ st.soc < cfg.capacityMWh then
        let space := cfg.capacityMWh - st.soc
        let charge := min (solar * cfg.chargeEfficiency)
          (min (powerLimitPerInterval cfg) space)
        if 0 < charge then
          if 0 < cfg.chargeEfficiency then
            let soc2 := st.soc + charge
            let stc : ChargeState :=
              { st with
                soc := soc2
                totalCharged := st.totalCharged + charge
                chargeIntervals := st.chargeIntervals ++ [i]
                actions := st.actions ++ [.punjenje i charge solar price soc2] }
            let remainingSolar := solar - charge / cfg.chargeEfficiency
            if 0 < remainingSolar then
              some { stc with
                directSaleRevenue := stc.directSaleRevenue + remainingSolar * price
                directSaleEnergy := stc.directSaleEnergy + remainingSolar
                actions := stc.actions
                  ++ [.direktnaProdaja i remainingSolar price soc2] }
            else some stc
          else none
        else
          some { st with
            directSaleRevenue := st.directSaleRevenue + solar * price
            directSaleEnergy := st.directSaleEnergy + solar
            actions := st.actions ++ [.direktnaProdaja i solar price st.soc] }
      else if 0 < solar then
        some { st with
          directSaleRevenue := st.directSaleRevenue + solar * price
          directSaleEnergy := st.directSaleEnergy + solar
          actions := st.actions ++ [.direktnaProdaja i solar price st.soc] }
      else some st
    match stOpt with
    | some st2 => some { st2 with socHistory := st2.socHistory ++ [st2.soc] }
    | none => none
  | _, _ => none

/-- The forward pass, checked. -/
def runCharge_checked (cfg : BatteryConfig) (prices solarE : List ℚ) :
    Option ChargeState :=
  foldlOption (chargeStep_checked cfg prices solarE) chargeInit (List.range 96)

/-- One step of the candidate enumeration, checked: `prices[i]` is read (and
may fail) exactly when the short-circuit `and` of line 317 reaches it. -/
def sellCandStep (cfg : BatteryConfig) (prices : List ℚ) (lastCharge : ℕ)
    (acc : List (ℕ × ℚ)) (i : ℕ) : Option (List (ℕ × ℚ)) :=
  if lastCharge + 1 ≤ i then
    if cfg.minSellHour ≤ i / 4 then
      match prices[i]? with
      | some p => if 0 < p then some (acc ++ [(i, p)]) else some acc
      | none => none
    else some acc
  else some acc

/-- The candidate enumeration of lines 315-318, checked. -/
def sellCandidates_checked (cfg : BatteryConfig) (prices : List ℚ)
    (lastCharge : ℕ) : Option (List (ℕ × ℚ)) :=
  foldlOption (sellCandStep cfg prices lastCharge) [] (List.range 96)

/-- The candidate selection of lines 312-320, checked: `charge_intervals[-1]`
is only read under the non-emptiness guard of line 312. -/
def sortedSellCandidates_checked (cfg : BatteryConfig) (prices : List ℚ)
    (fwd : ChargeState) : Option (List (ℕ × ℚ)) :=
  match fwd.chargeIntervals.getLast? with
  | some lastCharge =>
      if 0 < fwd.soc then
        match sellCandidates_checked cfg prices lastCharge with
        | some cs => some (sortPriceDesc cs)
        | none => none
      else some []
  | none => some []

/-- `simulate_day`, checked.  The discharge loop itself performs no division
and no unguarded indexing (the history overwrite is bounds-checked in the
source), so it is reused as is; `np.mean` is reached only under the
non-emptiness guard of line 346 and never divides by zero. -/
def simulate_day_checked (cfg : BatteryConfig) (prices sunshine : List ℚ) :
    Option DayResult :=
  (solarEnergySeries_checked cfg sunshine).bind fun solarEnergy =>
  (solarPower_checked solarEnergy).bind fun solarPower =>
  (runCharge_checked cfg prices solarEnergy).bind fun fwd =>
  (sortedSellCandidates_checked cfg prices fwd).bind fun cands =>
  let dis := cands.foldl
    (dischargeStep (powerLimitPerInterval cfg) cfg.dischargeEfficiency)
    (dischargeInit fwd)
  some
    { total_produced := solarEnergy.sum
      total_delivered := fwd.directSaleEnergy + dis.batterySaleEnergy
      direct_sale_energy := fwd.directSaleEnergy
      direct_sale_revenue := fwd.directSaleRevenue
      battery_charged := fwd.totalCharged
      battery_sold := dis.batterySaleEnergy
      battery_profit := dis.batterySaleProfit
      total_revenue := fwd.directSaleRevenue + dis.batterySaleProfit
      battery_sale_price := batterySalePriceOf cands dis
      battery_sale_intervals := dis.batterySaleIntervals
      charge_intervals := fwd.chargeIntervals
      actions := dis.actions
      soc_history := dis.socHistory
      solar_power := solarPower
      prices := prices
      final_soc := dis.remaining }

theorem solar_production_checked_eq (cfg : BatteryConfig) (s : ℚ) :
    solar_production_checked cfg s = some (solar_production cfg s) := by
  unfold solar_production_checked solar_production
  split_ifs with h1 h2
  · rfl
  · rfl
  · exact absurd (by norm_num : (0:ℚ) < 3600) h2

theorem mapOptionQ_eq (f2 : ℚ → Option ℚ) (f : ℚ → ℚ)
    (h : ∀ a, f2 a = some (f a)) (l : List ℚ) :
    mapOptionQ f2 l = some (l.map f) := by
  induction l with
  | nil => rfl
  | cons a l ih => simp [mapOptionQ, h, ih]

theorem solarEnergySeries_checked_eq (cfg : BatteryConfig) (sunshine : List ℚ) :
    solarEnergySeries_checked cfg sunshine
      = some (solarEnergySeries cfg sunshine) :=
  mapOptionQ_eq _ _ (solar_production_checked_eq cfg) _

theorem solarPower_checked_eq (l : List ℚ) :
    solarPower_checked l = some (l.map fun e => if 0 < e then e / 0.25 else 0) := by
  refine mapOptionQ_eq _ _ ?_ l
  intro a
  split_ifs with h1 h2
  · rfl
  · exact absurd (by norm_num : (0:ℚ) < 0.25) h2
  · rfl

theorem foldlOption_eq {σ α : Type} (step2 : σ → α → Option σ)
    (step : σ → α → σ) (l : List α)
    (h : ∀ st a, a ∈ l → step2 st a = some (step st a)) :
    ∀ st : σ, foldlOption step2 st l = some (l.foldl step st) := by
  induction l with
  | nil => intro st; rfl
  | cons a l ih =>
    intro st
    unfold foldlOption
    rw [h st a (List.mem_cons_self _ _), List.foldl_cons]
    exact ih (fun st a ha => h st a (List.mem_cons_of_mem _ ha)) (step st a)

theorem chargeStep_checked_eq (cfg : BatteryConfig) (prices solarE : List ℚ)
    (hp : prices.length = 96) (hsE : solarE.length = 96)
    (heta : 0 < cfg.chargeEfficiency) (st : ChargeState) (i : ℕ) (hi : i < 96) :
    chargeStep_checked cfg prices solarE st i
      = some (chargeStep cfg prices solarE st i) := by
  have h1 : solarE[i]? = some (solarE.getD i 0) := by
    rw [List.getElem?_eq_getElem (by omega), List.getD_eq_getElem _ _ (by omega)]
  have h2 : prices[i]? = some (prices.getD i 0) := by
    rw [List.getElem?_eq_getElem (by omega), List.getD_eq_getElem _ _ (by omega)]
  unfold chargeStep_checked chargeStep
  rw [h1, h2]
  simp only []
  split_ifs <;> rfl

theorem runCharge_checked_eq (cfg : BatteryConfig) (prices solarE : List ℚ)
    (hp : prices.length = 96) (hsE : solarE.length = 96)
    (heta : 0 < cfg.chargeEfficiency) :
    runCharge_checked cfg prices solarE = some (runCharge cfg prices solarE) := by
  unfold runCharge_checked runCharge
  exact foldlOption_eq _ _ _
    (fun st a ha => chargeStep_checked_eq cfg prices solarE hp hsE heta st a
      (List.mem_range.1 ha)) chargeInit

theorem sellCandStep_eq (cfg : BatteryConfig) (prices : List ℚ)
    (hp : prices.length = 96) (lastCharge : ℕ) (acc : List (ℕ × ℚ)) (i : ℕ)
    (hi : i < 96) :
    sellCandStep cfg prices lastCharge acc i
      = some (if lastCharge + 1 ≤ i ∧ cfg.minSellHour ≤ i / 4
                ∧ 0 < prices.getD i 0
              then acc ++ [(i, prices.getD i 0)] else acc) := by
  have hpi : prices[i]? = some (prices.getD i 0) := by
    rw [List.getElem?_eq_getElem (by omega), List.getD_eq_getElem _ _ (by omega)]
  unfold sellCandStep
  rw [hpi]
  show (if lastCharge + 1 ≤ i then
          if cfg.minSellHour ≤ i / 4 then
            if 0 < prices.getD i 0 then some (acc ++ [(i, prices.getD i 0)])
            else some acc
          else some acc
        else some acc) = _
  split_ifs <;> first | rfl | tauto

theorem foldl_append_filterMap (C : ℕ → Prop) [DecidablePred C] (g : ℕ → ℚ) :
    ∀ (l : List ℕ) (acc : List (ℕ × ℚ)),
      l.foldl (fun acc i => if C i then acc ++ [(i, g i)] else acc) acc
        = acc ++ l.filterMap (fun i => if C i then some (i, g i) else none) := by
  intro l
  induction l with
  | nil => intro acc; simp
  | cons i l ih =>
    intro acc
    by_cases hC : C i
    · simp [List.filterMap_cons, hC, ih]
    · simp [List.filterMap_cons, hC, ih]

theorem sellCandidates_checked_eq (cfg : BatteryConfig) (prices : List ℚ)
    (hp : prices.length = 96) (lastCharge : ℕ) :
    sellCandidates_checked cfg prices lastCharge
      = some (sellCandidates cfg prices lastCharge) := by
  unfold sellCandidates_checked sellCandidates
  rw [foldlOption_eq (sellCandStep cfg prices lastCharge)
    (fun (acc : List (ℕ × ℚ)) (i : ℕ) =>
      if lastCharge + 1 ≤ i ∧ cfg.minSellHour ≤ i / 4 ∧ 0 < prices.getD i 0
      then acc ++ [(i, prices.getD i 0)] else acc)
    (List.range 96)
    (fun acc i hi =>
      sellCandStep_eq cfg prices hp lastCharge acc i (List.mem_range.1 hi)) []]
  rw [foldl_append_filterMap
    (fun i => lastCharge + 1 ≤ i ∧ cfg.minSellHour ≤ i / 4 ∧ 0 < prices.getD i 0)
    (fun i => prices.getD i 0) (List.range 96) []]
  rfl

theorem sortedSellCandidates_checked_eq (cfg : BatteryConfig)
    (prices : List ℚ) (hp : prices.length = 96) (fwd : ChargeState) :
    sortedSellCandidates_checked cfg prices fwd
      = some (sortedSellCandidates cfg prices fwd) := by
  unfold sortedSellCandidates_checked sortedSellCandidates
  rcases hlast : fwd.chargeIntervals.getLast? with _ | lc
  · rfl
  · show (if 0 < fwd.soc then
            match sellCandidates_checked cfg prices lc with
            | some cs => some (sortPriceDesc cs)
            | none => none
          else some [])
        = some (if 0 < fwd.soc then
            sortPriceDesc (sellCandidates cfg prices lc) else [])
    rw [sellCandidates_checked_eq cfg prices hp lc]
    split_ifs <;> rfl

/-- Claim C6: on any prices list of length 96, sunshine list of length 24 and
well-formed configuration, the checked model completes without any failure
and agrees with the total model: `simulate_day` is a total function of its
declared input shapes and every division it performs has a strictly positive
divisor. -/
theorem C6_totality (cfg : BatteryConfig) (prices sunshine : List ℚ)
    (hp : prices.length = 96) (hs : sunshine.length = 24) (hcfg : WellFormed cfg) :
    simulate_day_checked cfg prices sunshine
      = some (simulate_day cfg prices sunshine) := by
  have heta := hcfg.2.2.1
  have hsE : (solarEnergySeries cfg sunshine).length = 96 :=
    solarEnergySeries_length cfg sunshine hs
  unfold simulate_day_checked simulate_day
  simp only [solarEnergySeries_checked_eq, solarPower_checked_eq,
    runCharge_checked_eq cfg prices _ hp hsE heta,
    sortedSellCandidates_checked_eq cfg prices hp, Option.some_bind]
  rfl

/-! ## Witnesses: each hypothesis-bearing claim theorem instantiated on a
concrete day (one sunny hour, spike or tie prices) and fully evaluated. -/

/-- Witness for C1 at interval 0 of the spike day. -/
theorem C1_witness :
    exPricesSpike.length = 96 ∧ exSun.length = 24 ∧ WellFormed exCfg ∧
    (0:ℕ) < 96 ∧ 0 < (solarEnergySeries exCfg exSun).getD 0 0 ∧
    (chargeEnergyAt (simulate_day exCfg exPricesSpike exSun).actions 0
        / exCfg.chargeEfficiency
      + directSaleEnergyAt (simulate_day exCfg exPricesSpike exSun).actions 0
      = (solarEnergySeries exCfg exSun).getD 0 0) :=
  ⟨by with_unfolding_all decide, by with_unfolding_all decide,
   by with_unfolding_all decide, by decide, by with_unfolding_all decide,
   C1_per_interval_energy_conservation exCfg exPricesSpike exSun
     (by with_unfolding_all decide) (by with_unfolding_all decide)
     (by with_unfolding_all decide) 0 (by decide)
     (by with_unfolding_all decide)⟩

/-- Witness for C2 at the trace entry 0 of the spike day. -/
theorem C2_witness :
    exPricesSpike.length = 96 ∧ exSun.length = 24 ∧ WellFormed exCfg ∧
    (0:ℚ) ∈ (simulate_day exCfg exPricesSpike exSun).soc_history ∧
    (0 ≤ (0:ℚ) ∧ (0:ℚ) ≤ exCfg.capacityMWh) :=
  ⟨by with_unfolding_all decide, by with_unfolding_all decide,
   by with_unfolding_all decide, by with_unfolding_all decide,
   C2_capacity_invariant exCfg exPricesSpike exSun
     (by with_unfolding_all decide) (by with_unfolding_all decide)
     (by with_unfolding_all decide) 0 (by with_unfolding_all decide)⟩

/-- Witness for the amended C3 at trace index 12 of the spike day. -/
theorem C3_witness :
    exPricesSpike.length = 96 ∧ exSun.length = 24 ∧ WellFormed exCfg ∧
    (1:ℕ) ≤ 12 ∧ (12:ℕ) ≤ 96 ∧
    ((simulate_day exCfg exPricesSpike exSun).soc_history.length = 97 ∧
     (simulate_day exCfg exPricesSpike exSun).soc_history.getD 0 0 = 0 ∧
     (simulate_day exCfg exPricesSpike exSun).soc_history.getD 12 0
       = lastWriteSoC
           ((simulate_day exCfg exPricesSpike exSun).actions.filter
             fun a => a.isPraznjenje)
           (chargeSumUpTo (simulate_day exCfg exPricesSpike exSun).actions
             (12 - 1)) 12) :=
  ⟨by with_unfolding_all decide, by with_unfolding_all decide,
   by with_unfolding_all decide, by decide, by decide,
   C3_soc_trace_last_write_wins exCfg exPricesSpike exSun
     (by with_unfolding_all decide) (by with_unfolding_all decide)
     (by with_unfolding_all decide) 12 (by decide) (by decide)⟩

/-- Witness for C4 at the charge action of interval 0 of the spike day. -/
theorem C4_witness :
    exPricesSpike.length = 96 ∧ exSun.length = 24 ∧ WellFormed exCfg ∧
    Action.punjenje 0 (1/4) (1/4) 0 (1/4)
      ∈ (simulate_day exCfg exPricesSpike exSun).actions ∧
    ((Action.punjenje 0 (1/4) (1/4) 0 (1/4)).isPunjenje = true ∨
     (Action.punjenje 0 (1/4) (1/4) 0 (1/4)).isPraznjenje = true) ∧
    (Action.punjenje 0 (1/4) (1/4) 0 (1/4)).energija ≤ exCfg.powerMW * 0.25 :=
  ⟨by with_unfolding_all decide, by with_unfolding_all decide,
   by with_unfolding_all decide, by with_unfolding_all decide, by decide,
   C4_power_limit exCfg exPricesSpike exSun
     (by with_unfolding_all decide) (by with_unfolding_all decide)
     (by with_unfolding_all decide) (Action.punjenje 0 (1/4) (1/4) 0 (1/4))
     (by with_unfolding_all decide) (by decide)⟩

/-- Witness for C5 at the discharge action of interval 50 of the spike day. -/
theorem C5_witness :
    exPricesSpike.length = 96 ∧ exSun.length = 24 ∧ WellFormed exCfg ∧
    Action.praznjenje 50 (1/4) 10 (3/4)
      ∈ (simulate_day exCfg exPricesSpike exSun).actions ∧
    (Action.praznjenje 50 (1/4) 10 (3/4)).isPraznjenje = true ∧
    ((∀ b ∈ (simulate_day exCfg exPricesSpike exSun).actions,
        b.isPunjenje = true →
          b.interval < (Action.praznjenje 50 (1/4) 10 (3/4)).interval) ∧
      exCfg.minSellHour ≤ (Action.praznjenje 50 (1/4) 10 (3/4)).interval / 4) :=
  ⟨by with_unfolding_all decide, by with_unfolding_all decide,
   by with_unfolding_all decide, by with_unfolding_all decide, by decide,
   C5_discharge_eligibility exCfg exPricesSpike exSun
     (by with_unfolding_all decide) (by with_unfolding_all decide)
     (by with_unfolding_all decide) (Action.praznjenje 50 (1/4) 10 (3/4))
     (by with_unfolding_all decide) (by decide)⟩

/-- Witness for C6 on the spike day. -/
theorem C6_witness :
    exPricesSpike.length = 96 ∧ exSun.length = 24 ∧ WellFormed exCfg ∧
    simulate_day_checked exCfg exPricesSpike exSun
      = some (simulate_day exCfg exPricesSpike exSun) :=
  ⟨by with_unfolding_all decide, by with_unfolding_all decide,
   by with_unfolding_all decide,
   C6_totality exCfg exPricesSpike exSun
     (by with_unfolding_all decide) (by with_unfolding_all decide)
     (by with_unfolding_all decide)⟩

/-- Witness for C7 on the spike day. -/
theorem C7_witness :
    exPricesSpike.length = 96 ∧ exSun.length = 24 ∧ WellFormed exCfg ∧
    (((simulate_day exCfg exPricesSpike exSun).actions.filter
        (fun a => a.isPraznjenje) = [] →
      (simulate_day exCfg exPricesSpike exSun).battery_sale_price = 0) ∧
    ((simulate_day exCfg exPricesSpike exSun).actions.filter
        (fun a => a.isPraznjenje) ≠ [] →
      (simulate_day exCfg exPricesSpike exSun).battery_sale_price
        = npMean (((simulate_day exCfg exPricesSpike exSun).actions.filter
            fun a => a.isPraznjenje).map
              fun a => exPricesSpike.getD a.interval 0))) :=
  ⟨by with_unfolding_all decide, by with_unfolding_all decide,
   by with_unfolding_all decide,
   C7_battery_sale_price exCfg exPricesSpike exSun
     (by with_unfolding_all decide) (by with_unfolding_all decide)
     (by with_unfolding_all decide)⟩

/-- Witness for C9 on the tie day: equal price 5 at intervals 10 and 20. -/
theorem C9_witness :
    exPricesTie.length = 96 ∧ exSun.length = 24 ∧ WellFormed exCfg ∧
    (10:ℕ) < 20 ∧ exPricesTie.getD 10 0 = exPricesTie.getD 20 0 ∧
    20 ∈ (simulate_day exCfg exPricesTie exSun).battery_sale_intervals ∧
    (∀ b ∈ (simulate_day exCfg exPricesTie exSun).charge_intervals, b < 10) ∧
    exCfg.minSellHour ≤ 10 / 4 ∧ 0 < exPricesTie.getD 10 0 ∧ (10:ℕ) < 96 ∧
    (10 ∈ (simulate_day exCfg exPricesTie exSun).battery_sale_intervals ∧
      List.Sublist [10, 20]
        (simulate_day exCfg exPricesTie exSun).battery_sale_intervals) :=
  ⟨by with_unfolding_all decide, by with_unfolding_all decide,
   by with_unfolding_all decide, by decide, by with_unfolding_all decide,
   by with_unfolding_all decide, by with_unfolding_all decide, by decide,
   by with_unfolding_all decide, by decide,
   C9_tie_break exCfg exPricesTie exSun
     (by with_unfolding_all decide) (by with_unfolding_all decide)
     (by with_unfolding_all decide) 10 20 (by decide)
     (by with_unfolding_all decide) (by with_unfolding_all decide)
     (by with_unfolding_all decide) (by decide)
     (by with_unfolding_all decide) (by decide)⟩

/-- Witness for C10 on the spike day. -/
theorem C10_witness :
    exPricesSpike.length = 96 ∧ exSun.length = 24 ∧ WellFormed exCfg ∧
    ((simulate_day exCfg exPricesSpike exSun).total_delivered
      ≤ (simulate_day exCfg exPricesSpike exSun).total_produced ∧
    ((simulate_day exCfg exPricesSpike exSun).total_delivered
        = (simulate_day exCfg exPricesSpike exSun).total_produced →
      (simulate_day exCfg exPricesSpike exSun).battery_charged = 0 ∨
        (exCfg.chargeEfficiency = 1 ∧ exCfg.dischargeEfficiency = 1))) :=
  ⟨by with_unfolding_all decide, by with_unfolding_all decide,
   by with_unfolding_all decide,
   C10_day_energy_balance exCfg exPricesSpike exSun
     (by with_unfolding_all decide) (by with_unfolding_all decide)
     (by with_unfolding_all decide)⟩

end Solarna
